import Mathlib

/-!
# Verification of the clrs_btree B-tree implementation

A shallow embedding of the Go B-tree (the final revision: the file defining
the types `node` and `btree` together with `newNode`, `search`, `insertLeaf`,
`insert`, `splitChild`, `newBTree`, `checkInvariances` and the tree-level
`insert`), together with proofs and refutations of its specification.

Modelling conventions:

* Items are key/payload pairs `Item κ = κ × Nat` over a linearly ordered key
  type; the three-way `compare` method is `compareItems`, mirroring the
  `numItem.compare` implementation (`lessThan = -1`, `equal = 0`,
  `greaterThan = 1`), which compares only the keys, so two items may compare
  `equal` while carrying different payloads.
* A Go `node` holds fixed-length slices: `items` has length `2t-1` and
  `children` length `2t` (internal) or `0` (leaf); slots beyond the live
  count `n` hold garbage (`none` after `newNode`).  The embedding keeps those
  slices whole, as `List (Option _)`, because the code's behaviour on the
  garbage slots is observable (`search` reads `children[len(children)-1]`).
* Go runtime panics (nil dereference, index out of range, nil-interface
  comparison) are modelled as `Except.error`; `fmt.Errorf` results returned
  as values are modelled as ordinary returned data, not as `Except.error`.
* Pointer mutation is modelled by value passing: each mutating operation
  returns the updated node.  On every state reachable from `newBTree` the
  live slots (indices `≤ n`) of all nodes form a proper tree with no
  aliasing, and no operation writes through a stale slot, so value semantics
  agrees with the Go heap semantics on those states.
* Go's `int` arithmetic `2*t-1` is modelled with natural subtraction, which
  agrees with Go for every `t ≥ 1`; all claims construct trees through
  `newBTree`, which requires `t ≥ 2`.
-/

/-- Key/payload items: the `compare` method of the source's `numItem`
compares only the numeric value, so the key determines the comparison and
the payload models the rest of a user item. -/
abbrev Item (κ : Type) : Type := κ × Nat

/-- Source constant `greaterThan = 1`. -/
def greaterThan : Int := 1

/-- Source constant `equal = 0`. -/
def equal : Int := 0

/-- Source constant `lessThan = -1`. -/
def lessThan : Int := -1

section Cmp

variable {κ : Type} [LinearOrder κ]

/-- The `compare` method (from `numItem.compare`): `lessThan` when the
receiver's key is smaller, `equal` on equal keys, else `greaterThan`. -/
def compareItems (a b : Item κ) : Int :=
  if a.1 < b.1 then lessThan
  else if a.1 = b.1 then equal
  else greaterThan

theorem compareItems_eq_equal {a b : Item κ} :
    compareItems a b = equal ↔ a.1 = b.1 := by
  unfold compareItems equal lessThan greaterThan
  rcases lt_trichotomy a.1 b.1 with h | h | h
  · simp only [if_pos h]
    exact ⟨fun hc => absurd hc (by norm_num), fun hc => absurd hc h.ne⟩
  · simp [h]
  · rw [if_neg (not_lt.mpr h.le), if_neg h.ne.symm]
    exact ⟨fun hc => absurd hc (by norm_num), fun hc => absurd hc h.ne.symm⟩

theorem compareItems_eq_lessThan {a b : Item κ} :
    compareItems a b = lessThan ↔ a.1 < b.1 := by
  unfold compareItems equal lessThan greaterThan
  rcases lt_trichotomy a.1 b.1 with h | h | h
  · simp [h]
  · rw [if_neg (by simp [h]), if_pos h]
    exact ⟨fun hc => absurd hc (by norm_num), fun hc => absurd (h ▸ hc) (lt_irrefl _)⟩
  · rw [if_neg (not_lt.mpr h.le), if_neg h.ne.symm]
    exact ⟨fun hc => absurd hc (by norm_num), fun hc => absurd hc (not_lt.mpr h.le)⟩

theorem compareItems_eq_greaterThan {a b : Item κ} :
    compareItems a b = greaterThan ↔ b.1 < a.1 := by
  unfold compareItems equal lessThan greaterThan
  rcases lt_trichotomy a.1 b.1 with h | h | h
  · rw [if_pos h]
    exact ⟨fun hc => absurd hc (by norm_num), fun hc => absurd h (not_lt.mpr hc.le)⟩
  · rw [if_neg (by simp [h]), if_pos h]
    exact ⟨fun hc => absurd hc (by norm_num), fun hc => absurd (h ▸ hc) (lt_irrefl _)⟩
  · rw [if_neg (not_lt.mpr h.le), if_neg h.ne.symm]
    simp [h]

end Cmp

/-- The `node` struct: leaf flag, live item count `n`, the fixed-length
`items` slice and the fixed-length `children` slice (empty on leaves, where
Go keeps a nil slice).  `Option` models nil slots. -/
inductive node (κ : Type) : Type where
  | mk (isLeaf : Bool) (n : Nat) (items : List (Option (Item κ)))
      (children : List (Option (node κ)))

namespace node

variable {κ : Type}

/-- Field `isLeaf`. -/
def isLeaf : node κ → Bool
  | .mk lf _ _ _ => lf

/-- Field `n` (number of live items). -/
def n : node κ → Nat
  | .mk _ nn _ _ => nn

/-- Field `items`. -/
def items : node κ → List (Option (Item κ))
  | .mk _ _ it _ => it

/-- Field `children`. -/
def children : node κ → List (Option (node κ))
  | .mk _ _ _ cs => cs

@[simp] theorem isLeaf_mk (lf nn it cs) : (node.mk (κ := κ) lf nn it cs).isLeaf = lf := rfl

@[simp] theorem n_mk (lf nn it cs) : (node.mk (κ := κ) lf nn it cs).n = nn := rfl

@[simp] theorem items_mk (lf nn it cs) : (node.mk (κ := κ) lf nn it cs).items = it := rfl

@[simp] theorem children_mk (lf nn it cs) : (node.mk (κ := κ) lf nn it cs).children = cs := rfl

theorem sizeOf_lt_of_mem_children {c : node κ} {cs : List (Option (node κ))}
    (h : some c ∈ cs) (lf : Bool) (nn : Nat) (it : List (Option (Item κ))) :
    sizeOf c < sizeOf (node.mk lf nn it cs) := by
  have h1 : sizeOf (some c) < sizeOf cs := List.sizeOf_lt_of_mem h
  simp only [node.mk.sizeOf_spec]
  simp only [Option.some.sizeOf_spec] at h1
  omega

end node

/-- Go `copy(dst, src)`: overwrite the first `min |dst| |src|` entries of
`dst` with those of `src`, keeping the rest of `dst`. -/
def goCopy {α : Type} (dst src : List α) : List α :=
  src.take (min dst.length src.length) ++ dst.drop (min dst.length src.length)

/-- The idiom `copy(l[i+1:], l[i:])`: shift the entries from position `i`
one slot to the right, dropping the last entry; positions `≤ i` unchanged.
(In the source, Go's slicing panics only when `i + 1 > len(l)`, and every
call site has `i < len(l)`.) -/
def shiftRight {α : Type} (l : List α) (i : Nat) : List α :=
  l.take (i+1) ++ (l.drop i).take (l.length - (i+1))

namespace node

variable {κ : Type} [LinearOrder κ]

/-- The source's `newNode(t, isLeaf)`: zero count, `2t-1` nil item slots and,
for internal nodes, `2t` nil child slots (leaves keep a nil slice). -/
def newNode (t : Nat) (isLeaf : Bool) : node κ :=
  .mk isLeaf 0 (List.replicate (2*t - 1) none)
    (if isLeaf then [] else List.replicate (2*t) none)

/-- The loop of `node.search`, started at index `i`.  The `switch` on
`item.compare(n.items[i])` either continues the scan (`greaterThan` hits a
`break` of the `switch` only), returns the stored item (`equal`), or recurses
into child `i` (`lessThan`).  When the scan exhausts the live items, a leaf
returns nil (absent) and an internal node recurses into
`children[len(children)-1]`, which is slot `2t-1` of the fixed-length slice.
Nil dereferences and out-of-range indices are Go panics, hence errors. -/
def searchFrom : node κ → Nat → Item κ → Except String (Option (Item κ))
  | .mk lf nn it cs, i, x =>
    if _hlt : i < nn then
      match it.get? i with
      | none => .error "index out of range"
      | some none => .error "nil item compare"
      | some (some curr) =>
        if compareItems x curr = equal then .ok (some curr)
        else if compareItems x curr = lessThan then
          match _hc : cs.get? i with
          | none => .error "index out of range"
          | some none => .error "nil pointer dereference"
          | some (some c) => searchFrom c 0 x
        else searchFrom (.mk lf nn it cs) (i+1) x
    else
      if lf then .ok none
      else
        match _hc : cs.get? (cs.length - 1) with
        | none => .error "index out of range"
        | some none => .error "nil pointer dereference"
        | some (some c) => searchFrom c 0 x
  termination_by nd i _ => (sizeOf nd, nd.n - i)
  decreasing_by
  · exact Prod.Lex.left _ _ (sizeOf_lt_of_mem_children (List.get?_mem _hc) lf nn it)
  · apply Prod.Lex.right
    simp only [node.n]
    omega
  · exact Prod.Lex.left _ _ (sizeOf_lt_of_mem_children (List.get?_mem _hc) lf nn it)

/-- `node.search`: run the scan from index 0. -/
def search (nd : node κ) (x : Item κ) : Except String (Option (Item κ)) :=
  searchFrom nd 0 x

end node

namespace node

variable {κ : Type}

mutual

/-- Height of a node (1 for a leaf), taking the maximum over every non-nil
entry of the `children` slice (live or stale); used as the termination
measure for `insert`. -/
def hgt : node κ → Nat
  | .mk _ _ _ cs => 1 + hgtL cs

/-- Maximum height over the non-nil entries of a child-slot list. -/
def hgtL : List (Option (node κ)) → Nat
  | [] => 0
  | none :: rest => hgtL rest
  | some c :: rest => max (hgt c) (hgtL rest)

end

theorem hgt_le_hgtL {c : node κ} :
    ∀ {l : List (Option (node κ))}, some c ∈ l → hgt c ≤ hgtL l := by
  intro l
  induction l with
  | nil => intro h; cases h
  | cons a rest ih =>
    intro h
    rcases List.mem_cons.mp h with h | h
    · subst h
      rw [hgtL]
      exact le_max_left _ _
    · have := ih h
      match a with
      | none => rw [hgtL]; exact this
      | some c2 => rw [hgtL]; exact le_trans this (le_max_right _ _)

theorem hgtL_le_of_subset {l1 l2 : List (Option (node κ))}
    (h : ∀ c : node κ, some c ∈ l1 → some c ∈ l2) : hgtL l1 ≤ hgtL l2 := by
  induction l1 with
  | nil => rw [hgtL]; omega
  | cons a rest ih =>
    have hrest : hgtL rest ≤ hgtL l2 :=
      ih fun c hc => h c (List.mem_cons_of_mem _ hc)
    match a with
    | none => rw [hgtL]; exact hrest
    | some c =>
      rw [hgtL]
      exact max_le (hgt_le_hgtL (h c (List.mem_cons_self _ _))) hrest

theorem hgt_lt_of_mem_children {c : node κ}
    {cs : List (Option (node κ))} (h : some c ∈ cs) (lf : Bool) (nn : Nat)
    (it : List (Option (Item κ))) : hgt c < hgt (node.mk lf nn it cs) := by
  rw [hgt]
  have := hgt_le_hgtL h
  omega

end node

theorem mem_of_mem_shiftRight {α : Type} {a : α} {l : List α} {i : Nat}
    (h : a ∈ shiftRight l i) : a ∈ l := by
  unfold shiftRight at h
  rcases List.mem_append.mp h with h | h
  · exact List.mem_of_mem_take h
  · exact List.mem_of_mem_drop (List.mem_of_mem_take h)

theorem mem_of_mem_goCopy {α : Type} {a : α} {dst src : List α}
    (h : a ∈ goCopy dst src) : a ∈ dst ∨ a ∈ src := by
  unfold goCopy at h
  rcases List.mem_append.mp h with h | h
  · exact Or.inr (List.mem_of_mem_take h)
  · exact Or.inl (List.mem_of_mem_drop h)

namespace node

variable {κ : Type} [LinearOrder κ]

/-- The `node.insertLeaf` scan, started at index `i`: on `equal` record the
current item as `prev` and stop; on `lessThan` shift the tail right one slot
(`copy(n.items[i+1:], n.items[i:])`) and stop; otherwise keep scanning.  When
the scan exhausts the live items it stops at `i = n` with no `prev`.
Returns (stop index, `prev`, updated items slice). -/
def insertLeafLoop (x : Item κ) (nn : Nat) (it : List (Option (Item κ))) :
    Nat → Except String (Nat × Option (Item κ) × List (Option (Item κ)))
  | i =>
    if i < nn then
      match it.get? i with
      | none => .error "index out of range"
      | some none => .error "nil item compare"
      | some (some curr) =>
        if compareItems x curr = equal then .ok (i, some curr, it)
        else if compareItems x curr = lessThan then .ok (i, none, shiftRight it i)
        else insertLeafLoop x nn it (i+1)
    else .ok (i, none, it)
  termination_by i => nn - i

/-- `node.insertLeaf`: run the scan, write the new item at the stop index
(`n.items[i] = newItem`, a panic when the index is out of range, which Go
reaches when a full leaf takes a fresh item), and increment `n` exactly when
no previous item was recorded. -/
def insertLeaf (nd : node κ) (x : Item κ) : Except String (Option (Item κ) × node κ) :=
  match nd with
  | .mk lf nn it cs =>
    match insertLeafLoop x nn it 0 with
    | .error e => .error e
    | .ok (i, prev, it1) =>
      if i < it1.length then
        .ok (prev, .mk lf (if prev = none then nn + 1 else nn) (it1.set i x) cs)
      else .error "index out of range"

/-- The child slice of the fresh sibling `z` in `splitChild`: `newNode`
leaves it nil for a leaf, and for an internal node `copy(z.children,
y.children[t:])` fills its first `t` slots from `y`'s upper half. -/
def zChildren (t : Nat) (ylf : Bool) (ycs : List (Option (node κ))) :
    List (Option (node κ)) :=
  if ylf then [] else goCopy (List.replicate (2*t) (none : Option (node κ))) (ycs.drop t)

omit [LinearOrder κ] in
theorem mem_of_mem_zChildren {t : Nat} {ylf : Bool} {ycs : List (Option (node κ))}
    {c : node κ} (h : some c ∈ zChildren t ylf ycs) : some c ∈ ycs := by
  unfold zChildren at h
  split at h
  · cases h
  · rcases mem_of_mem_goCopy h with h | h
    · exact absurd (List.eq_of_mem_replicate h) (by simp)
    · exact List.mem_of_mem_drop h

/-- `node.splitChild(t, i)`, translated statement by statement: read the full
child `y` at slot `i`, record its middle item as the median, build the fresh
sibling `z` from `y`'s upper half (`newNode` then `copy`), truncate `y` to
count `t-1` (its upper slots stay in place as garbage), shift the parent's
items and children right of position `i` by one slot, store the median at
item slot `i` and `z` at child slot `i+1`, and increment the parent's count.
Each Go slice-bound or nil-pointer panic is an explicit error. -/
def splitChild (t : Nat) (nd : node κ) (i : Nat) :
    Except String (Option (Item κ) × node κ) :=
  match nd with
  | .mk lf nn it cs =>
    match cs.get? i with
    | none => .error "index out of range"
    | some none => .error "nil pointer dereference"
    | some (some (.mk ylf yn yit ycs)) =>
      match yit.get? (t-1) with
      | none => .error "index out of range"
      | some median =>
        if t ≤ yit.length then
          if ylf = true ∨ t ≤ ycs.length then
            let zit := goCopy (List.replicate (2*t-1) (none : Option (Item κ))) (yit.drop t)
            let z : node κ := .mk ylf (t-1) zit (zChildren t ylf ycs)
            let y1 : node κ := .mk ylf (t-1) yit ycs
            if i < it.length then
              if i + 1 < cs.length then
                .ok (median, .mk lf (nn+1) ((shiftRight it i).set i median)
                  ((shiftRight (cs.set i (some y1)) (i+1)).set (i+1) (some z)))
              else .error "index out of range"
            else .error "index out of range"
          else .error "slice bounds out of range"
        else .error "slice bounds out of range"

/-- In-place mutation of the child a recursive `insert` descended into,
seen from the parent: replace child slot `j`. -/
def setChild : node κ → Nat → node κ → node κ
  | .mk lf nn it cs, j, c => .mk lf nn it (cs.set j (some c))

theorem splitChild_hgt {t : Nat} {nd nd1 : node κ} {i : Nat} {m : Option (Item κ)}
    (h : splitChild t nd i = .ok (m, nd1)) {c : node κ}
    (hc : some c ∈ nd1.children) : hgt c < hgt nd := by
  obtain ⟨lf, nn, it, cs⟩ := nd
  rw [splitChild] at h
  split at h
  · exact absurd h (by simp)
  · exact absurd h (by simp)
  · rename_i ylf yn yit ycs hy
    split at h
    · exact absurd h (by simp)
    · rename_i median hmed
      split at h
      · split at h
        · split at h
          · split at h
            · rw [Except.ok.injEq, Prod.mk.injEq] at h
              obtain ⟨hm, hnd1⟩ := h
              subst hnd1
              simp only [children_mk] at hc
              have hy_mem : some (node.mk ylf yn yit ycs) ∈ cs := List.get?_mem hy
              have hy_hgt : hgt (node.mk ylf yn yit ycs) ≤ hgtL cs := hgt_le_hgtL hy_mem
              rcases List.mem_or_eq_of_mem_set hc with hc | hc
              · have hc2 := mem_of_mem_shiftRight hc
                rcases List.mem_or_eq_of_mem_set hc2 with hc3 | hc3
                · exact hgt_lt_of_mem_children hc3 lf nn it
                · rw [Option.some.injEq] at hc3
                  subst hc3
                  rw [hgt] at hy_hgt
                  rw [hgt, hgt]
                  omega
              · rw [Option.some.injEq] at hc
                subst hc
                rw [hgt] at hy_hgt
                have hsub : hgtL (zChildren t ylf ycs) ≤ hgtL ycs :=
                  hgtL_le_of_subset fun c2 hc2 => mem_of_mem_zChildren hc2
                rw [hgt, hgt]
                omega
            · exact absurd h (by simp)
          · exact absurd h (by simp)
        · exact absurd h (by simp)
      · exact absurd h (by simp)

/-- `node.insert`'s ascending scan over an internal node's items: `.inl (i,
curr)` when an `equal` item is found at slot `i` (insert will replace it in
place and return), `.inr i` when the scan stops before slot `i`'s item
(`lessThan`) or exhausts the live items (`i = n`). -/
def insertLoop (x : Item κ) (nn : Nat) (it : List (Option (Item κ))) :
    Nat → Except String (Sum (Nat × Item κ) Nat)
  | i =>
    if i < nn then
      match it.get? i with
      | none => .error "index out of range"
      | some none => .error "nil item compare"
      | some (some curr) =>
        if compareItems x curr = equal then .ok (.inl (i, curr))
        else if compareItems x curr = lessThan then .ok (.inr i)
        else insertLoop x nn it (i+1)
    else .ok (.inr i)
  termination_by i => nn - i

/-- `node.insert(t, newItem)`: a leaf delegates to `insertLeaf`.  An internal
node scans its items; on `equal` it replaces the item in place and returns
the previous one; otherwise it descends into child `i`, first splitting that
child when it is full and re-comparing against the promoted median
(`lessThan`: descend into the original child, now halved; `equal`: replace
the median in the parent and return it; `greaterThan`: descend into the new
right sibling).  The recursive call mutates the chosen child in place, which
value semantics renders as `setChild`. -/
def insert (t : Nat) : node κ → Item κ → Except String (Option (Item κ) × node κ)
  | .mk lf nn it cs, x =>
    if lf then insertLeaf (.mk lf nn it cs) x
    else
      match insertLoop x nn it 0 with
      | .error e => .error e
      | .ok (.inl (i, curr)) =>
        if i < it.length then .ok (some curr, .mk lf nn (it.set i x) cs)
        else .error "index out of range"
      | .ok (.inr i) =>
        match _hc : cs.get? i with
        | none => .error "index out of range"
        | some none => .error "nil pointer dereference"
        | some (some c) =>
          if c.n = 2*t - 1 then
            match _hs : splitChild t (.mk lf nn it cs) i with
            | .error e => .error e
            | .ok (medOpt, nd1) =>
              match medOpt with
              | none => .error "nil item compare"
              | some median =>
                if compareItems x median = lessThan then
                  match _hc1 : nd1.children.get? i with
                  | none => .error "index out of range"
                  | some none => .error "nil pointer dereference"
                  | some (some c1) =>
                    match insert t c1 x with
                    | .error e => .error e
                    | .ok (prev, c2) => .ok (prev, setChild nd1 i c2)
                else if compareItems x median = equal then
                  match nd1 with
                  | .mk lf1 nn1 it1 cs1 =>
                    if i < it1.length then
                      .ok (some median, .mk lf1 nn1 (it1.set i x) cs1)
                    else .error "index out of range"
                else
                  match _hc1 : nd1.children.get? (i+1) with
                  | none => .error "index out of range"
                  | some none => .error "nil pointer dereference"
                  | some (some c1) =>
                    match insert t c1 x with
                    | .error e => .error e
                    | .ok (prev, c2) => .ok (prev, setChild nd1 (i+1) c2)
          else
            match insert t c x with
            | .error e => .error e
            | .ok (prev, c1) => .ok (prev, setChild (.mk lf nn it cs) i c1)
  termination_by nd _ => hgt nd
  decreasing_by
  · exact splitChild_hgt _hs (List.get?_mem _hc1)
  · exact splitChild_hgt _hs (List.get?_mem _hc1)
  · exact hgt_lt_of_mem_children (List.get?_mem _hc) lf nn it

end node

/-- The `btree` struct: root pointer, minimum degree `t`, and the count of
distinct stored items `len`. -/
structure btree (κ : Type) where
  root : node κ
  t : Nat
  len : Nat

/-- `newBTree(t)`: panics (error) for `t < 2`, otherwise an empty leaf root
and a zero count. -/
def newBTree {κ : Type} (t : Nat) : Except String (btree κ) :=
  if t < 2 then .error "invalid minimum degree for btree, t must be >= 2"
  else .ok ⟨node.newNode t true, t, 0⟩

/-- `btree.search`: delegate to the root. -/
def btree.search {κ : Type} [LinearOrder κ] (b : btree κ) (x : Item κ) :
    Except String (Option (Item κ)) :=
  b.root.search x

/-- `btree.insert`: when the root is full, allocate a new internal root,
store the old root at child slot 0 and immediately split that child
(discarding the returned median); then delegate to `node.insert` on the
(possibly new) root and increment `len` exactly when no previous item was
returned. -/
def btree.insert {κ : Type} [LinearOrder κ] (b : btree κ) (x : Item κ) :
    Except String (Option (Item κ) × btree κ) :=
  let step1 : Except String (node κ) :=
    if b.root.n = 2*b.t - 1 then
      match node.newNode (κ := κ) b.t false with
      | .mk lf0 nn0 it0 cs0 =>
        if 0 < cs0.length then
          match node.splitChild b.t (.mk lf0 nn0 it0 (cs0.set 0 (some b.root))) 0 with
          | .error e => .error e
          | .ok (_, r2) => .ok r2
        else .error "index out of range"
    else .ok b.root
  match step1 with
  | .error e => .error e
  | .ok root1 =>
    match node.insert b.t root1 x with
    | .error e => .error e
    | .ok (prev, root2) =>
      .ok (prev, ⟨root2, b.t, if prev = none then b.len + 1 else b.len⟩)

/-- Sequential insertion of a list of items, discarding the returned
previous items (the pattern of the repository's driver and test). -/
def insertList {κ : Type} [LinearOrder κ] (b : btree κ) :
    List (Item κ) → Except String (btree κ)
  | [] => .ok b
  | x :: rest =>
    match b.insert x with
    | .error e => .error e
    | .ok (_, b1) => insertList b1 rest

/-- Interleave a list of child in-order sequences with a list of separator
items: `joinInter [c0, c1, ..., ck] [x0, ..., x(k-1)] = c0 ++ [x0] ++ c1 ++
... ++ [x(k-1)] ++ ck`.  Extra children beyond the first `|xs| + 1` are
ignored; a missing final child contributes nothing. -/
def joinInter {α : Type} : List (List α) → List α → List α
  | [], _ => []
  | c :: _, [] => c
  | c :: cs, x :: xs => c ++ x :: joinInter cs xs

namespace node

variable {κ : Type}

/-- The live (populated) items of a node: slots `0 ≤ j < n`. -/
def liveItems (nd : node κ) : List (Item κ) :=
  (nd.items.take nd.n).reduceOption

/-- The live children of a node: slots `0 ≤ j ≤ n`. -/
def liveChildren (nd : node κ) : List (node κ) :=
  (nd.children.take (nd.n + 1)).reduceOption

/-- Specification-level in-order sequence of the items stored in a subtree:
for a leaf its live items, for an internal node the in-order sequences of
its live children interleaved with its live items. -/
def inorder : node κ → List (Item κ)
  | .mk lf nn it cs =>
    if lf then (it.take nn).reduceOption
    else joinInter (((cs.take (nn+1)).reduceOption).attach.map fun c => inorder c.1)
      ((it.take nn).reduceOption)
  termination_by nd => sizeOf nd
  decreasing_by
    exact sizeOf_lt_of_mem_children
      (List.mem_of_mem_take (List.reduceOption_mem_iff.mp c.2)) _ _ _

theorem inorder_mk (lf : Bool) (nn : Nat) (it : List (Option (Item κ)))
    (cs : List (Option (node κ))) :
    inorder (node.mk lf nn it cs) =
      if lf then (it.take nn).reduceOption
      else joinInter (((cs.take (nn+1)).reduceOption).map inorder)
        ((it.take nn).reduceOption) := by
  rw [inorder.eq_def]
  dsimp only
  rw [List.attach_map_val]

theorem inorder_leaf (nn : Nat) (it : List (Option (Item κ)))
    (cs : List (Option (node κ))) :
    inorder (node.mk true nn it cs) = (it.take nn).reduceOption := by
  rw [inorder_mk]
  simp

theorem inorder_internal (nn : Nat) (it : List (Option (Item κ)))
    (cs : List (Option (node κ))) :
    inorder (node.mk false nn it cs) =
      joinInter (((cs.take (nn+1)).reduceOption).map inorder)
        ((it.take nn).reduceOption) := by
  rw [inorder_mk]
  simp

end node

/-- C1: the claim that `search(x)` returns an item comparing `Equal` to `x`
for every inserted and never-replaced `x` fails on the code: with `t = 2`,
inserting keys 1, 2, 3, 4 and then searching for the (inserted, never
replaced) key 3 dereferences a nil child, because the scan of the internal
root exhausts its single live item and the code then recurses into
`children[len(children)-1]`, the last slot of the fixed-length slice, which
is nil, instead of the live rightmost child `children[n]`. -/
theorem c1_search_panics_on_inserted_item :
    (newBTree (κ := Int) 2).bind
      (fun b0 => (insertList b0 [(1,0),(2,0),(3,0),(4,0)]).bind
        (fun b => b.search (3, 0))) = .error "nil pointer dereference" := by
  simp [newBTree, Except.bind, insertList, btree.insert, node.insert, node.insertLeaf,
    node.insertLeafLoop, node.insertLoop, node.splitChild, node.newNode, node.setChild,
    node.zChildren, goCopy, shiftRight, compareItems, equal, lessThan, greaterThan,
    btree.search, node.search, node.searchFrom]

/-- C4: when the ascending scan of `node.search` exhausts a node's items
with every comparison `greaterThan`, the code recurses into
`children[len(children)-1]` (slot `2t-1` of the fixed-length slice), not the
child at index `n` as the spec states.  On this internal node with `n = 1`,
the live rightmost child `children[1]` holds the target, but search reads
`children[3]`, which is nil, and panics. -/
theorem c4_scan_exhausted_reads_last_slot_not_n :
    let z : node Int := .mk true 1 [some (3,0), none, none] []
    let nd : node Int := .mk false 1 [some (2,0), none, none]
      [some (.mk true 1 [some (1,0), none, none] []), some z, none, none]
    nd.search (3, 0) = .error "nil pointer dereference" ∧
    nd.n = 1 ∧ nd.children.length - 1 = 3 ∧
    nd.children.get? nd.n = some (some z) ∧
    z.search (3, 0) = .ok (some (3, 0)) := by
  refine ⟨?_, rfl, rfl, rfl, ?_⟩ <;>
    simp [btree.search, node.search, node.searchFrom, compareItems, equal, lessThan,
      greaterThan]

/-- C7: the claim that search and insert always succeed on a tree built by
`newTree` over comparable items fails on the code: with `t = 2`, after
inserting keys 1, 2, 3, 4 (all inserts succeed), searching for key 4
dereferences a nil child slot and panics, exactly as in C1. -/
theorem c7_search_reaches_failure_branch :
    (newBTree (κ := Int) 2).bind
      (fun b0 => (insertList b0 [(1,0),(2,0),(3,0),(4,0)]).bind
        (fun b => b.search (4, 0))) = .error "nil pointer dereference" := by
  simp [newBTree, Except.bind, insertList, btree.insert, node.insert, node.insertLeaf,
    node.insertLeafLoop, node.insertLoop, node.splitChild, node.newNode, node.setChild,
    node.zChildren, goCopy, shiftRight, compareItems, equal, lessThan, greaterThan,
    btree.search, node.search, node.searchFrom]

/-- C8: `newBTree` halts (panics) for every minimum degree below 2, before
any tree is produced, and for every `t ≥ 2` returns a tree whose root is an
empty leaf (`newNode t true`: no live items) with `len = 0`. -/
theorem c8_newBTree_guard {κ : Type} (t : Nat) :
    (t < 2 → newBTree (κ := κ) t =
      .error "invalid minimum degree for btree, t must be >= 2") ∧
    (2 ≤ t → newBTree (κ := κ) t =
      .ok ⟨node.mk true 0 (List.replicate (2*t-1) none) [], t, 0⟩ ∧
      (node.mk (κ := κ) true 0 (List.replicate (2*t-1) none) []).isLeaf = true ∧
      (node.mk (κ := κ) true 0 (List.replicate (2*t-1) none) []).liveItems = []) := by
  constructor
  · intro h
    simp [newBTree, h]
  · intro h
    refine ⟨?_, rfl, ?_⟩
    · simp [newBTree, node.newNode]
      omega
    · simp [node.liveItems]

/-- Witness for C8 at `t = 0`, `t = 1` and `t = 2`. -/
theorem c8_newBTree_guard_witness :
    newBTree (κ := Int) 0 = .error "invalid minimum degree for btree, t must be >= 2" ∧
    newBTree (κ := Int) 1 = .error "invalid minimum degree for btree, t must be >= 2" ∧
    newBTree (κ := Int) 2 = .ok ⟨node.mk true 0 (List.replicate 3 none) [], 2, 0⟩ :=
  ⟨(c8_newBTree_guard 0).1 (by omega), (c8_newBTree_guard 1).1 (by omega),
    ((c8_newBTree_guard 2).2 (by omega)).1⟩

/-- C10: a replace can restructure the tree.  With `t = 2`, after inserting
keys 1, 2, 3 the root is a full leaf; inserting key 2 again with a new
payload first splits the full root (the tree grows: the root becomes
internal with one item and two children), and only then finds the equal key
as the promoted median and replaces it, returning the first payload; the
in-order key sequence and `len` are unchanged. -/
theorem c10_replace_can_restructure :
    let before : btree Int := ⟨.mk true 3 [some (1,0), some (2,0), some (3,0)] [], 2, 3⟩
    let afterRoot : node Int := .mk false 1 [some (2,1), none, none]
      [some (.mk true 1 [some (1,0), some (2,0), some (3,0)] []),
       some (.mk true 1 [some (3,0), none, none] []), none, none]
    insertList ⟨node.newNode 2 true, 2, 0⟩ [(1,0),(2,0),(3,0)] = .ok before ∧
    before.insert (2,1) = .ok (some (2,0), ⟨afterRoot, 2, 3⟩) ∧
    before.root.isLeaf = true ∧ before.root.n = 2*2-1 ∧
    afterRoot.isLeaf = false ∧ afterRoot.n = 1 ∧ afterRoot.liveChildren.length = 2 ∧
    (before.root.inorder).map Prod.fst = [1,2,3] ∧
    (afterRoot.inorder).map Prod.fst = [1,2,3] := by
  refine ⟨?_, ?_, rfl, rfl, rfl, rfl, ?_, ?_, ?_⟩
  · simp [insertList, btree.insert, node.insert, node.insertLeaf, node.insertLeafLoop,
      node.insertLoop, node.splitChild, node.newNode, node.setChild, node.zChildren,
      goCopy, shiftRight, compareItems, equal, lessThan, greaterThan]
  · simp [btree.insert, node.insert, node.insertLeaf, node.insertLeafLoop,
      node.insertLoop, node.splitChild, node.newNode, node.setChild, node.zChildren,
      goCopy, shiftRight, compareItems, equal, lessThan, greaterThan]
  · simp [node.liveChildren]
  · simp [node.inorder_mk, joinInter]
  · simp [node.inorder_mk, joinInter]

section ListForm

variable {β : Type}

theorem reduceOption_map_some (L : List β) : (L.map some).reduceOption = L := by
  induction L with
  | nil => rfl
  | cons a L ih => simp [List.reduceOption_cons_of_some, ih]

theorem take_reduceOption_of_form {l : List (Option β)} {L : List β}
    {rest : List (Option β)} {k : Nat} (hl : l = L.map some ++ rest)
    (hk : L.length = k) : (l.take k).reduceOption = L := by
  subst hl
  rw [List.take_left' (by simpa using hk), reduceOption_map_some]

theorem get?_of_form {l : List (Option β)} {L : List β} {rest : List (Option β)}
    {j : Nat} (hl : l = L.map some ++ rest) (hj : j < L.length) :
    l.get? j = (L.get? j).map some := by
  subst hl
  rw [List.get?_append (by simpa using hj), List.get?_map]

theorem set_of_form {l : List (Option β)} {L : List β} {rest : List (Option β)}
    {j : Nat} (hl : l = L.map some ++ rest) (hj : j < L.length) (a : β) :
    l.set j (some a) = (L.set j a).map some ++ rest := by
  subst hl
  rw [List.set_append_left _ _ (by simpa using hj), List.map_set]

theorem length_of_form {l : List (Option β)} {L : List β} {rest : List (Option β)}
    (hl : l = L.map some ++ rest) : l.length = L.length + rest.length := by
  subst hl
  simp

@[simp] theorem length_shiftRight {α : Type} (l : List α) (i : Nat) :
    (shiftRight l i).length = l.length := by
  unfold shiftRight
  rw [List.length_append, List.length_take, List.length_take, List.length_drop]
  omega

@[simp] theorem length_goCopy {α : Type} (dst src : List α) :
    (goCopy dst src).length = dst.length := by
  unfold goCopy
  rw [List.length_append, List.length_take, List.length_drop]
  omega

theorem goCopy_of_le {α : Type} {dst src : List α} (h : src.length ≤ dst.length) :
    goCopy dst src = src ++ dst.drop src.length := by
  unfold goCopy
  rw [min_eq_right h, List.take_length]

theorem insertIdx_eq_take_cons_drop {α : Type} :
    ∀ (l : List α) (i : Nat), i ≤ l.length → ∀ a : α,
    l.insertIdx i a = l.take i ++ a :: l.drop i := by
  intro l
  induction l with
  | nil =>
    intro i hi a
    simp only [List.length_nil, Nat.le_zero] at hi
    subst hi
    rfl
  | cons b l ih =>
    intro i hi a
    match i with
    | 0 => rfl
    | j+1 =>
      rw [List.insertIdx_succ_cons, ih j (by simpa using hi) a]
      simp

theorem set_take_succ {α : Type} {l : List α} {i : Nat} (h : i < l.length) (a : α) :
    (l.take (i+1)).set i a = l.take i ++ [a] := by
  rw [List.take_succ]
  rw [List.set_append_right _ _ (by rw [List.length_take]; omega)]
  have h1 : (l.take i).length = i := by rw [List.length_take]; omega
  rw [h1, Nat.sub_self]
  have h2 : l[i]? = some (l.get ⟨i, h⟩) := by
    rw [List.getElem?_eq_getElem h]
    rfl
  rw [h2]
  rfl

theorem shiftRight_set_eq {α : Type} {l : List α} {i : Nat} (h : i < l.length) (a : α) :
    (shiftRight l i).set i a = l.take i ++ a :: ((l.drop i).take (l.length - (i+1))) := by
  unfold shiftRight
  rw [List.set_append_left _ _ (by rw [List.length_take]; omega)]
  rw [set_take_succ h]
  simp

theorem shiftRight_set_of_form {β : Type} {L : List β} {l rest : List (Option β)}
    {i : Nat} (hl : l = L.map some ++ rest) (hi : i ≤ L.length)
    (hrest : 1 ≤ rest.length) (a : β) :
    (shiftRight l i).set i (some a) =
      (L.insertIdx i a).map some ++ rest.take (rest.length - 1) := by
  have hlen : l.length = L.length + rest.length := by rw [hl]; simp
  have hilt : i < l.length := by omega
  rw [shiftRight_set_eq hilt]
  have htake : l.take i = (L.take i).map some := by
    rw [hl, List.take_append_eq_append_take]
    have : i - (L.map some).length = 0 := by simp; omega
    rw [this, List.map_take]
    simp
  have hdrop : l.drop i = (L.drop i).map some ++ rest := by
    rw [hl, List.drop_append_eq_append_drop]
    have : i - (L.map some).length = 0 := by simp; omega
    rw [this, List.map_drop]
    simp
  have hdt : (l.drop i).take (l.length - (i+1)) =
      (L.drop i).map some ++ rest.take (rest.length - 1) := by
    rw [hdrop, List.take_append_eq_append_take]
    have h1 : ((L.drop i).map some).length = L.length - i := by simp
    rw [List.take_of_length_le (by omega), h1]
    congr 1
    congr 1
    omega
  rw [htake, hdt, insertIdx_eq_take_cons_drop L i hi a]
  simp

end ListForm

namespace node

variable {κ : Type}

/-- Shape well-formedness of a node with minimum degree `t`: the slices have
their `newNode` lengths, the live count is within capacity, the live item
slots hold a prefix of values `L`, internal nodes have `n+1` live child
slots holding a prefix of nodes `C`, leaves have a nil child slice, and
every live child is itself well-formed.  Slots beyond the live prefix are
unconstrained: they hold whatever garbage the code left there. -/
inductive WFN (t : Nat) : node κ → Prop where
  | mk (lf : Bool) (nn : Nat) (it : List (Option (Item κ)))
      (cs : List (Option (node κ)))
      (hItLen : it.length = 2*t - 1)
      (hnn : nn ≤ 2*t - 1)
      (hIt : ∃ L rest, it = List.map some L ++ rest ∧ List.length L = nn)
      (hCsLeaf : lf = true → cs = [])
      (hCsLen : lf = false → cs.length = 2*t)
      (hCs : lf = false → ∃ C rest, cs = List.map some C ++ rest ∧
        List.length C = nn + 1)
      (hRec : ∀ c : node κ, some c ∈ cs.take (nn + 1) → WFN t c) :
      WFN t (node.mk lf nn it cs)

/-- All leaves of the subtree lie at depth `h` (the root of the subtree at
depth 1): perfect balance. -/
inductive Bal : node κ → Nat → Prop where
  | leaf (nn : Nat) (it : List (Option (Item κ))) (cs : List (Option (node κ))) :
      Bal (node.mk true nn it cs) 1
  | internal (nn : Nat) (it : List (Option (Item κ))) (cs : List (Option (node κ)))
      (h : Nat) :
      (∀ c : node κ, some c ∈ cs.take (nn + 1) → Bal c h) →
      Bal (node.mk false nn it cs) (h + 1)

/-- Every node strictly below this one has at least `t-1` live items (the
root itself is exempt from the lower occupancy bound). -/
inductive MinOcc (t : Nat) : node κ → Prop where
  | mk (lf : Bool) (nn : Nat) (it : List (Option (Item κ)))
      (cs : List (Option (node κ))) :
      (∀ c : node κ, some c ∈ cs.take (nn + 1) → t - 1 ≤ c.n) →
      (∀ c : node κ, some c ∈ cs.take (nn + 1) → MinOcc t c) →
      MinOcc t (node.mk lf nn it cs)

theorem liveItems_eq {lf : Bool} {nn : Nat} {it : List (Option (Item κ))}
    {cs : List (Option (node κ))} {L : List (Item κ)} {rest : List (Option (Item κ))}
    (hit : it = List.map some L ++ rest) (hlen : L.length = nn) :
    (node.mk lf nn it cs).liveItems = L := by
  unfold liveItems
  simp only [items_mk, n_mk]
  exact take_reduceOption_of_form hit hlen

theorem liveChildren_eq {lf : Bool} {nn : Nat} {it : List (Option (Item κ))}
    {cs : List (Option (node κ))} {C : List (node κ)} {rest : List (Option (node κ))}
    (hcs : cs = List.map some C ++ rest) (hlen : C.length = nn + 1) :
    (node.mk lf nn it cs).liveChildren = C := by
  unfold liveChildren
  simp only [children_mk, n_mk]
  exact take_reduceOption_of_form hcs hlen

theorem inorder_form_leaf {nn : Nat} {it : List (Option (Item κ))}
    {cs : List (Option (node κ))} {L : List (Item κ)} {rest : List (Option (Item κ))}
    (hit : it = List.map some L ++ rest) (hlen : L.length = nn) :
    inorder (node.mk true nn it cs) = L := by
  rw [inorder_leaf]
  exact take_reduceOption_of_form hit hlen

theorem inorder_form_internal {nn : Nat} {it : List (Option (Item κ))}
    {cs : List (Option (node κ))} {L : List (Item κ)} {restI : List (Option (Item κ))}
    {C : List (node κ)} {restC : List (Option (node κ))}
    (hit : it = List.map some L ++ restI) (hlenI : L.length = nn)
    (hcs : cs = List.map some C ++ restC) (hlenC : C.length = nn + 1) :
    inorder (node.mk false nn it cs) = joinInter (C.map inorder) L := by
  rw [inorder_internal]
  rw [take_reduceOption_of_form hit hlenI, take_reduceOption_of_form hcs hlenC]

theorem mem_take_of_form {C : List (node κ)} {restC : List (Option (node κ))}
    {cs : List (Option (node κ))} {nn : Nat} (hcs : cs = List.map some C ++ restC)
    (hlenC : C.length = nn + 1) {c : node κ} :
    some c ∈ cs.take (nn + 1) ↔ c ∈ C := by
  subst hcs
  rw [List.take_left' (by simpa using hlenC)]
  constructor
  · intro h
    rcases List.mem_map.mp h with ⟨a, ha, hae⟩
    rw [Option.some.injEq] at hae
    exact hae ▸ ha
  · intro h
    exact List.mem_map.mpr ⟨c, h, rfl⟩

end node

section SpecList

variable {κ : Type} [LinearOrder κ]

/-- Upsert into the sorted association sequence: replace the unique item of
equal key, or insert at the sorted position. -/
def upsert (x : Item κ) : List (Item κ) → List (Item κ)
  | [] => [x]
  | y :: ys =>
    if x.1 < y.1 then x :: y :: ys
    else if x.1 = y.1 then x :: ys
    else y :: upsert x ys

/-- The first stored item whose key equals the key of `x`. -/
def lookupK (x : Item κ) : List (Item κ) → Option (Item κ)
  | [] => none
  | y :: ys => if y.1 = x.1 then some y else lookupK x ys

/-- Strictly ascending keys (hence duplicate-free). -/
def ItemsAsc (l : List (Item κ)) : Prop :=
  l.Pairwise (fun a b => a.1 < b.1)

theorem lookupK_eq_none_iff {x : Item κ} {l : List (Item κ)} :
    lookupK x l = none ↔ ∀ y ∈ l, y.1 ≠ x.1 := by
  induction l with
  | nil => simp [lookupK]
  | cons y ys ih =>
    unfold lookupK
    split
    · simp only [List.mem_cons]
      constructor
      · intro h; cases h
      · intro h
        exact absurd (by assumption) (h y (Or.inl rfl))
    · rw [ih]
      simp only [List.mem_cons]
      constructor
      · intro h z hz
        rcases hz with hz | hz
        · subst hz; assumption
        · exact h z hz
      · intro h z hz
        exact h z (Or.inr hz)

theorem lookupK_mem {x y : Item κ} {l : List (Item κ)}
    (h : lookupK x l = some y) : y ∈ l ∧ y.1 = x.1 := by
  induction l with
  | nil => simp [lookupK] at h
  | cons z zs ih =>
    unfold lookupK at h
    split at h
    · rw [Option.some.injEq] at h
      subst h
      exact ⟨List.mem_cons_self _ _, by assumption⟩
    · rcases ih h with ⟨h1, h2⟩
      exact ⟨List.mem_cons_of_mem _ h1, h2⟩

theorem upsert_cons (x y : Item κ) (ys : List (Item κ)) :
    upsert x (y :: ys) =
      if x.1 < y.1 then x :: y :: ys
      else if x.1 = y.1 then x :: ys
      else y :: upsert x ys := rfl

theorem lookupK_cons (x y : Item κ) (ys : List (Item κ)) :
    lookupK x (y :: ys) = if y.1 = x.1 then some y else lookupK x ys := rfl

theorem upsert_append_mid {x : Item κ} {A M S : List (Item κ)}
    (hA : ∀ a ∈ A, a.1 < x.1) (hS : ∀ s ∈ S, x.1 < s.1) :
    upsert x (A ++ M ++ S) = A ++ upsert x M ++ S := by
  induction A with
  | nil =>
    simp only [List.nil_append]
    induction M with
    | nil =>
      simp only [List.nil_append]
      match S with
      | [] => rfl
      | s :: S' =>
        rw [upsert_cons, if_pos (hS s (List.mem_cons_self _ _))]
        rfl
    | cons m M' ihM =>
      simp only [List.cons_append]
      rw [upsert_cons, upsert_cons]
      split
      · rfl
      · split
        · rfl
        · simp [ihM]
  | cons a A' ihA =>
    simp only [List.cons_append]
    have ha : a.1 < x.1 := hA a (List.mem_cons_self _ _)
    rw [upsert_cons, if_neg (not_lt.mpr ha.le), if_neg (ne_of_gt ha)]
    rw [ihA fun b hb => hA b (List.mem_cons_of_mem _ hb)]

theorem lookupK_append_mid {x : Item κ} {A M S : List (Item κ)}
    (hA : ∀ a ∈ A, a.1 < x.1) (hS : ∀ s ∈ S, x.1 < s.1) :
    lookupK x (A ++ M ++ S) = lookupK x M := by
  induction A with
  | nil =>
    simp only [List.nil_append]
    induction M with
    | nil =>
      simp only [List.nil_append]
      have hnone : lookupK x S = none := by
        rw [lookupK_eq_none_iff]
        intro z hz
        exact ne_of_gt (hS z hz)
      rw [hnone]
      rfl
    | cons m M' ihM =>
      simp only [List.cons_append]
      rw [lookupK_cons, lookupK_cons]
      split
      · rfl
      · rw [ihM]
  | cons a A' ihA =>
    simp only [List.cons_append]
    have ha : a.1 < x.1 := hA a (List.mem_cons_self _ _)
    rw [lookupK_cons, if_neg (ne_of_lt ha)]
    exact ihA fun b hb => hA b (List.mem_cons_of_mem _ hb)

end SpecList

section SpecList2

variable {κ : Type} [LinearOrder κ]

theorem upsert_append_replace {x y : Item κ} {A B : List (Item κ)}
    (hA : ∀ a ∈ A, a.1 < x.1) (hy : y.1 = x.1) :
    upsert x (A ++ y :: B) = A ++ x :: B := by
  induction A with
  | nil =>
    simp only [List.nil_append]
    rw [upsert_cons, if_neg (by rw [hy]; exact lt_irrefl _), if_pos hy.symm]
  | cons a A' ihA =>
    simp only [List.cons_append]
    have ha : a.1 < x.1 := hA a (List.mem_cons_self _ _)
    rw [upsert_cons, if_neg (not_lt.mpr ha.le), if_neg (ne_of_gt ha)]
    rw [ihA fun b hb => hA b (List.mem_cons_of_mem _ hb)]

theorem lookupK_append_replace {x y : Item κ} {A B : List (Item κ)}
    (hA : ∀ a ∈ A, a.1 < x.1) (hy : y.1 = x.1) :
    lookupK x (A ++ y :: B) = some y := by
  induction A with
  | nil =>
    simp only [List.nil_append]
    rw [lookupK_cons, if_pos hy]
  | cons a A' ihA =>
    simp only [List.cons_append]
    have ha : a.1 < x.1 := hA a (List.mem_cons_self _ _)
    rw [lookupK_cons, if_neg (ne_of_lt ha)]
    exact ihA fun b hb => hA b (List.mem_cons_of_mem _ hb)

theorem mem_upsert {x a : Item κ} : ∀ {l : List (Item κ)},
    a ∈ upsert x l → a = x ∨ a ∈ l := by
  intro l
  induction l with
  | nil =>
    intro h
    exact Or.inl (List.mem_singleton.mp h)
  | cons y ys ih =>
    intro h
    rw [upsert_cons] at h
    split at h
    · rcases List.mem_cons.mp h with h | h
      · exact Or.inl h
      · exact Or.inr h
    · split at h
      · rcases List.mem_cons.mp h with h | h
        · exact Or.inl h
        · exact Or.inr (List.mem_cons_of_mem _ h)
      · rcases List.mem_cons.mp h with h | h
        · exact Or.inr (h ▸ List.mem_cons_self _ _)
        · rcases ih h with h | h
          · exact Or.inl h
          · exact Or.inr (List.mem_cons_of_mem _ h)

theorem upsert_pairwise {x : Item κ} : ∀ {l : List (Item κ)},
    ItemsAsc l → ItemsAsc (upsert x l) := by
  intro l
  induction l with
  | nil => intro _; simp [upsert, ItemsAsc]
  | cons y ys ih =>
    intro hl
    unfold ItemsAsc at hl
    rw [List.pairwise_cons] at hl
    obtain ⟨hy, hys⟩ := hl
    rw [upsert_cons]
    split
    · unfold ItemsAsc
      rw [List.pairwise_cons]
      refine ⟨?_, List.pairwise_cons.mpr ⟨hy, hys⟩⟩
      intro b hb
      rcases List.mem_cons.mp hb with hb | hb
      · subst hb; assumption
      · calc x.1 < y.1 := by assumption
          _ < b.1 := hy b hb
    · split
      · unfold ItemsAsc
        rw [List.pairwise_cons]
        refine ⟨?_, hys⟩
        intro b hb
        have h2 := hy b hb
        calc x.1 = y.1 := by assumption
          _ < b.1 := h2
      · unfold ItemsAsc
        rw [List.pairwise_cons]
        refine ⟨?_, ih hys⟩
        intro b hb
        rcases mem_upsert hb with hb | hb
        · rw [hb]
          rcases lt_trichotomy x.1 y.1 with h | h | h
          · exact absurd h (by assumption)
          · exact absurd h (by assumption)
          · exact h
        · exact hy b hb

theorem upsert_length {x : Item κ} : ∀ {l : List (Item κ)}, ItemsAsc l →
    (lookupK x l = none → (upsert x l).length = l.length + 1) ∧
    (∀ y, lookupK x l = some y → (upsert x l).length = l.length) := by
  intro l
  induction l with
  | nil =>
    intro _
    constructor
    · intro _; rfl
    · intro y hy; simp [lookupK] at hy
  | cons z zs ih =>
    intro hl
    unfold ItemsAsc at hl
    rw [List.pairwise_cons] at hl
    obtain ⟨hz, hzs⟩ := hl
    rcases lt_trichotomy x.1 z.1 with h | h | h
    · constructor
      · intro _
        rw [upsert_cons, if_pos h]
        simp
      · intro y hy
        rw [lookupK_cons, if_neg (ne_of_gt h)] at hy
        rcases lookupK_mem hy with ⟨hmem, hkey⟩
        have h2 : z.1 < y.1 := hz y hmem
        rw [hkey] at h2
        exact absurd (lt_trans h h2) (lt_irrefl _)
    · constructor
      · intro hc
        rw [lookupK_cons, if_pos h.symm] at hc
        cases hc
      · intro y _
        rw [upsert_cons, if_neg (by rw [h]; exact lt_irrefl _), if_pos h]
        simp
    · have hne1 : ¬ x.1 < z.1 := not_lt.mpr h.le
      have hne2 : ¬ x.1 = z.1 := ne_of_gt h
      have hne3 : ¬ z.1 = x.1 := ne_of_lt h
      obtain ⟨ih1, ih2⟩ := ih hzs
      constructor
      · intro hn
        rw [lookupK_cons, if_neg hne3] at hn
        rw [upsert_cons, if_neg hne1, if_neg hne2]
        simp [ih1 hn]
      · intro y hy
        rw [lookupK_cons, if_neg hne3] at hy
        rw [upsert_cons, if_neg hne1, if_neg hne2]
        simp [ih2 y hy]

end SpecList2

/-- The interleaving of the first `min |cs| |xs|` child sequences with the
first items: the part of `joinInter` strictly before a scan position. -/
def prefixJoin {α : Type} : List (List α) → List α → List α
  | c :: cs, x :: xs => c ++ x :: prefixJoin cs xs
  | _, _ => []

@[simp] theorem prefixJoin_nil_left {α : Type} (xs : List α) :
    prefixJoin [] xs = [] := rfl

@[simp] theorem prefixJoin_nil_right {α : Type} (cs : List (List α)) :
    prefixJoin cs [] = [] := by
  match cs with
  | [] => rfl
  | c :: cs => rfl

@[simp] theorem prefixJoin_cons_cons {α : Type} (c : List α) (cs : List (List α))
    (x : α) (xs : List α) :
    prefixJoin (c :: cs) (x :: xs) = c ++ x :: prefixJoin cs xs := rfl

@[simp] theorem joinInter_nil_left {α : Type} (xs : List α) :
    joinInter [] xs = [] := rfl

@[simp] theorem joinInter_cons_nil {α : Type} (c : List α) (cs : List (List α)) :
    joinInter (c :: cs) [] = c := rfl

@[simp] theorem joinInter_cons_cons {α : Type} (c : List α) (cs : List (List α))
    (x : α) (xs : List α) :
    joinInter (c :: cs) (x :: xs) = c ++ x :: joinInter cs xs := rfl

theorem joinInter_decomp {α : Type} :
    ∀ (i : Nat) (Cs : List (List α)) (Xs : List α), i ≤ Xs.length →
    Cs.length = Xs.length + 1 →
    joinInter Cs Xs = prefixJoin (Cs.take i) (Xs.take i) ++
      joinInter (Cs.drop i) (Xs.drop i) := by
  intro i
  induction i with
  | zero => intro Cs Xs _ _; simp
  | succ j ih =>
    intro Cs Xs hi hlen
    cases Xs with
    | nil => simp at hi
    | cons x Xs' =>
      cases Cs with
      | nil => simp at hlen
      | cons c Cs' =>
        have hlen' : Cs'.length = Xs'.length + 1 := by simpa using hlen
        have hi' : j ≤ Xs'.length := by simpa using hi
        simp only [List.take_succ_cons, List.drop_succ_cons, joinInter_cons_cons,
          prefixJoin_cons_cons]
        rw [ih Cs' Xs' hi' hlen']
        simp

theorem joinInter_split_at_nil {α : Type} (Cs2 : List (List α)) (Xs : List α) (p : Nat)
    (hlen : Cs2.length = Xs.length + 1)
    {M : List α} {Ctail : List (List α)}
    (hdrop : Cs2.drop p = M :: Ctail) (hXd : Xs.drop p = []) :
    joinInter Cs2 Xs = prefixJoin (Cs2.take p) (Xs.take p) ++ M := by
  have hp : p ≤ Xs.length := by
    by_contra hcon
    have h2 : Cs2.drop p = [] := List.drop_eq_nil_of_le (by omega)
    rw [h2] at hdrop
    cases hdrop
  rw [joinInter_decomp p Cs2 Xs hp hlen, hdrop, hXd]
  rfl

theorem joinInter_split_at_cons {α : Type} (Cs2 : List (List α)) (Xs : List α) (p : Nat)
    (hlen : Cs2.length = Xs.length + 1)
    {M : List α} {Ctail : List (List α)} {xi : α} {r : List α}
    (hdrop : Cs2.drop p = M :: Ctail) (hXd : Xs.drop p = xi :: r) :
    joinInter Cs2 Xs = prefixJoin (Cs2.take p) (Xs.take p) ++ M ++ xi :: joinInter Ctail r := by
  have hp : p ≤ Xs.length := by
    by_contra hcon
    have h2 : Xs.drop p = [] := List.drop_eq_nil_of_le (by omega)
    rw [h2] at hXd
    cases hXd
  rw [joinInter_decomp p Cs2 Xs hp hlen, hdrop, hXd]
  simp

theorem take_set_self {α : Type} (l : List α) (p : Nat) (a : α) :
    (l.set p a).take p = l.take p := by
  rw [List.set_take, List.set_eq_of_length_le (by rw [List.length_take]; omega)]

theorem drop_set_self {α : Type} {l : List α} {p : Nat} (hp : p < l.length) (a : α) :
    (l.set p a).drop p = a :: l.drop (p+1) := by
  rw [List.drop_set, if_neg (lt_irrefl p), Nat.sub_self,
    List.drop_eq_getElem_cons hp]
  rfl

section Bounds

variable {κ : Type} [LinearOrder κ]

theorem prefixJoin_lt_bound {xk : κ} :
    ∀ (i : Nat) (Cs : List (List (Item κ))) (Xs : List (Item κ)),
    i ≤ Xs.length → Cs.length = Xs.length + 1 →
    ItemsAsc (joinInter Cs Xs) →
    (∀ j, j < i → ∀ y : Item κ, Xs.get? j = some y → y.1 < xk) →
    ∀ p ∈ prefixJoin (Cs.take i) (Xs.take i), p.1 < xk := by
  intro i
  induction i with
  | zero => intro Cs Xs _ _ _ _ p hp; simp at hp
  | succ j ih =>
    intro Cs Xs hi hlen hsorted hlow p hp
    cases Xs with
    | nil => simp at hi
    | cons x0 Xs' =>
      cases Cs with
      | nil => simp at hlen
      | cons c Cs' =>
        rw [List.take_succ_cons, List.take_succ_cons, prefixJoin_cons_cons] at hp
        rw [joinInter_cons_cons] at hsorted
        unfold ItemsAsc at hsorted
        rw [List.pairwise_append] at hsorted
        obtain ⟨hc, hrest, hcross⟩ := hsorted
        have hx0 : x0.1 < xk := hlow 0 (Nat.succ_pos _) x0 rfl
        rcases List.mem_append.mp hp with hp | hp
        · exact lt_trans (hcross p hp x0 (List.mem_cons_self _ _)) hx0
        · rcases List.mem_cons.mp hp with hp | hp
          · rw [hp]; exact hx0
          · rw [List.pairwise_cons] at hrest
            exact ih Cs' Xs' (by simpa using hi) (by simpa using hlen) hrest.2
              (fun j' hj' y hy => hlow (j'+1) (by omega) y (by simpa using hy)) p hp

theorem joinInter_gt_bound {xk : κ} :
    ∀ (i : Nat) (Cs : List (List (Item κ))) (Xs : List (Item κ)) (xi : Item κ),
    Cs.length = Xs.length + 1 →
    ItemsAsc (joinInter Cs Xs) →
    Xs.get? i = some xi → xk < xi.1 →
    ∀ s ∈ xi :: joinInter (Cs.drop (i+1)) (Xs.drop (i+1)), xk < s.1 := by
  intro i
  induction i with
  | zero =>
    intro Cs Xs xi hlen hsorted hget hk s hs
    cases Xs with
    | nil => simp [List.get?] at hget
    | cons x0 Xs' =>
      cases Cs with
      | nil => simp at hlen
      | cons c Cs' =>
        have hx0 : x0 = xi := by simpa [List.get?] using hget
        subst hx0
        rw [joinInter_cons_cons] at hsorted
        unfold ItemsAsc at hsorted
        rw [List.pairwise_append, List.pairwise_cons] at hsorted
        obtain ⟨_, ⟨hx0lt, _⟩, _⟩ := hsorted
        simp only [List.drop_succ_cons, List.drop_one] at hs
        rcases List.mem_cons.mp hs with hs | hs
        · rw [hs]; exact hk
        · simp only [List.drop_zero] at hs
          exact lt_trans hk (hx0lt s hs)
  | succ j ih =>
    intro Cs Xs xi hlen hsorted hget hk s hs
    cases Xs with
    | nil => simp [List.get?] at hget
    | cons x0 Xs' =>
      cases Cs with
      | nil => simp at hlen
      | cons c Cs' =>
        rw [joinInter_cons_cons] at hsorted
        unfold ItemsAsc at hsorted
        rw [List.pairwise_append, List.pairwise_cons] at hsorted
        obtain ⟨_, ⟨_, htail⟩, _⟩ := hsorted
        exact ih Cs' Xs' xi (by simpa using hlen) htail (by simpa using hget) hk s
          (by simpa using hs)

theorem descend_decomp {xk : κ} {Cs : List (List (Item κ))}
    {Xs : List (Item κ)} {p : Nat} (hp : p ≤ Xs.length)
    (hlen : Cs.length = Xs.length + 1) (hsorted : ItemsAsc (joinInter Cs Xs))
    (hlow : ∀ j, j < p → ∀ y : Item κ, Xs.get? j = some y → y.1 < xk)
    (hhigh : ∀ y : Item κ, Xs.get? p = some y → xk < y.1) :
    ∃ A S : List (Item κ),
      (∀ M' : List (Item κ), joinInter (Cs.set p M') Xs = A ++ M' ++ S) ∧
      (∀ M : List (Item κ), Cs.get? p = some M → joinInter Cs Xs = A ++ M ++ S) ∧
      (∀ a ∈ A, a.1 < xk) ∧ (∀ s ∈ S, xk < s.1) := by
  have hpCs : p < Cs.length := by omega
  have hdropCs : Cs.drop p = Cs[p] :: Cs.drop (p+1) := List.drop_eq_getElem_cons hpCs
  have hAbound := prefixJoin_lt_bound p Cs Xs hp hlen hsorted hlow
  cases hXd : Xs.drop p with
  | nil =>
    refine ⟨prefixJoin (Cs.take p) (Xs.take p), [], ?_, ?_, hAbound, ?_⟩
    · intro M'
      have htake : (Cs.set p M').take p = Cs.take p := take_set_self Cs p M'
      have hdrop : (Cs.set p M').drop p = M' :: Cs.drop (p+1) := drop_set_self hpCs M'
      rw [joinInter_split_at_nil (Cs.set p M') Xs p (by simpa using hlen) hdrop hXd, htake]
      simp
    · intro M hM
      have hMp : Cs[p] = M := by
        rw [List.get?_eq_getElem?, List.getElem?_eq_getElem hpCs, Option.some.injEq] at hM
        exact hM
      rw [hMp] at hdropCs
      rw [joinInter_split_at_nil Cs Xs p hlen hdropCs hXd]
      simp
    · intro s hs; simp at hs
  | cons xi r =>
    have hpXs : p < Xs.length := by
      by_contra hcon
      rw [List.drop_eq_nil_of_le (by omega)] at hXd
      cases hXd
    have hxi : Xs.get? p = some xi := by
      rw [List.drop_eq_getElem_cons hpXs, List.cons.injEq] at hXd
      rw [List.get?_eq_getElem?, List.getElem?_eq_getElem hpXs, hXd.1]
    have hr : r = Xs.drop (p+1) := by
      rw [List.drop_eq_getElem_cons hpXs, List.cons.injEq] at hXd
      exact hXd.2.symm
    refine ⟨prefixJoin (Cs.take p) (Xs.take p),
      xi :: joinInter (Cs.drop (p+1)) r, ?_, ?_, hAbound, ?_⟩
    · intro M'
      have htake : (Cs.set p M').take p = Cs.take p := take_set_self Cs p M'
      have hdrop : (Cs.set p M').drop p = M' :: Cs.drop (p+1) := drop_set_self hpCs M'
      rw [joinInter_split_at_cons (Cs.set p M') Xs p (by simpa using hlen) hdrop hXd, htake]
    · intro M hM
      have hMp : Cs[p] = M := by
        rw [List.get?_eq_getElem?, List.getElem?_eq_getElem hpCs, Option.some.injEq] at hM
        exact hM
      rw [hMp] at hdropCs
      rw [joinInter_split_at_cons Cs Xs p hlen hdropCs hXd]
    · subst hr
      exact joinInter_gt_bound p Cs Xs xi hlen hsorted hxi (hhigh xi hxi)

theorem replace_decomp {x : Item κ} {Cs : List (List (Item κ))}
    {Xs : List (Item κ)} {p : Nat} (hp : p < Xs.length)
    (hlen : Cs.length = Xs.length + 1) (hsorted : ItemsAsc (joinInter Cs Xs))
    {xp : Item κ} (hxp : Xs.get? p = some xp) (hkey : xp.1 = x.1) :
    ∃ A B : List (Item κ),
      joinInter Cs Xs = A ++ xp :: B ∧
      joinInter Cs (Xs.set p x) = A ++ x :: B ∧
      (∀ a ∈ A, a.1 < x.1) ∧ (∀ b ∈ B, x.1 < b.1) := by
  have hpCs : p < Cs.length := by omega
  have hxp2 : Xs[p] = xp := by
    rw [List.get?_eq_getElem?, List.getElem?_eq_getElem hp, Option.some.injEq] at hxp
    exact hxp
  have hdropCs : Cs.drop p = Cs[p] :: Cs.drop (p+1) := List.drop_eq_getElem_cons hpCs
  have hXd : Xs.drop p = xp :: Xs.drop (p+1) := by
    rw [List.drop_eq_getElem_cons hp, hxp2]
  have heq1 : joinInter Cs Xs = (prefixJoin (Cs.take p) (Xs.take p) ++ Cs[p]) ++
      xp :: joinInter (Cs.drop (p+1)) (Xs.drop (p+1)) := by
    rw [joinInter_split_at_cons Cs Xs p hlen hdropCs hXd]
  have heq2 : joinInter Cs (Xs.set p x) = (prefixJoin (Cs.take p) (Xs.take p) ++ Cs[p]) ++
      x :: joinInter (Cs.drop (p+1)) (Xs.drop (p+1)) := by
    rw [joinInter_split_at_cons Cs (Xs.set p x) p
      (by rw [List.length_set]; exact hlen) hdropCs (by rw [drop_set_self hp])]
    rw [take_set_self]
  refine ⟨prefixJoin (Cs.take p) (Xs.take p) ++ Cs[p],
    joinInter (Cs.drop (p+1)) (Xs.drop (p+1)), heq1, heq2, ?_, ?_⟩
  · intro a ha
    have hs := hsorted
    rw [heq1] at hs
    unfold ItemsAsc at hs
    rw [List.pairwise_append] at hs
    have := hs.2.2 a ha xp (List.mem_cons_self _ _)
    rw [hkey] at this
    exact this
  · intro b hb
    have hs := hsorted
    rw [heq1] at hs
    unfold ItemsAsc at hs
    rw [List.pairwise_append, List.pairwise_cons] at hs
    have := hs.2.1.1 b hb
    rw [hkey] at this
    exact this

end Bounds

theorem mem_take_exists_get? {α : Type} {l : List α} {k : Nat} {a : α}
    (h : a ∈ l.take k) : ∃ j, j < k ∧ l.get? j = some a := by
  rcases List.mem_iff_get?.mp h with ⟨j, hj⟩
  have hjk : j < k := by
    by_contra hcon
    rw [List.get?_take_eq_none (by omega)] at hj
    cases hj
  exact ⟨j, hjk, by rw [← List.get?_take hjk]; exact hj⟩

theorem sorted_drop_bound {κ : Type} [LinearOrder κ] {L : List (Item κ)} {p : Nat}
    {xk : κ} (hsorted : ItemsAsc L) (hp : p < L.length)
    (hhigh : ∀ y : Item κ, L.get? p = some y → xk < y.1) :
    ∀ s ∈ L.drop p, xk < s.1 := by
  intro s hs
  have hd : L.drop p = L[p] :: L.drop (p+1) := List.drop_eq_getElem_cons hp
  have hgp : L.get? p = some L[p] := by
    rw [List.get?_eq_getElem?, List.getElem?_eq_getElem hp]
  have hxp : xk < L[p].1 := hhigh _ hgp
  rw [hd] at hs
  rcases List.mem_cons.mp hs with hs | hs
  · rw [hs]; exact hxp
  · have hpw : (L.drop p).Pairwise (fun a b : Item κ => a.1 < b.1) :=
      hsorted.sublist (List.drop_sublist _ _)
    rw [hd, List.pairwise_cons] at hpw
    exact lt_trans hxp (hpw.1 s hs)

namespace node

variable {κ : Type} [LinearOrder κ]

theorem insertLoop_from {x : Item κ} {nn : Nat} {it : List (Option (Item κ))}
    {L : List (Item κ)} {rest : List (Option (Item κ))}
    (hit : it = L.map some ++ rest) (hL : L.length = nn) :
    ∀ i, i ≤ nn →
    (∃ p curr, insertLoop x nn it i = .ok (.inl (p, curr)) ∧ i ≤ p ∧ p < nn ∧
      L.get? p = some curr ∧ curr.1 = x.1 ∧
      (∀ j, i ≤ j → j < p → ∀ y : Item κ, L.get? j = some y → y.1 < x.1)) ∨
    (∃ p, insertLoop x nn it i = .ok (.inr p) ∧ i ≤ p ∧ p ≤ nn ∧
      (∀ j, i ≤ j → j < p → ∀ y : Item κ, L.get? j = some y → y.1 < x.1) ∧
      (p < nn → ∀ y : Item κ, L.get? p = some y → x.1 < y.1)) := by
  intro i hi
  generalize hk : nn - i = k
  induction k generalizing i with
  | zero =>
    have hieq : i = nn := by omega
    subst hieq
    right
    refine ⟨i, ?_, le_refl _, le_refl _, ?_, ?_⟩
    · rw [insertLoop]
      rw [if_neg (lt_irrefl i)]
    · intro j h1 h2 _ _; omega
    · intro h; omega
  | succ k ih =>
    have hilt : i < nn := by omega
    obtain ⟨yi, hyi⟩ : ∃ yi, L.get? i = some yi := by
      rcases List.get?_eq_some.mpr ⟨(by omega : i < L.length), rfl⟩ with h
      exact ⟨_, h⟩
    have hiti : it.get? i = some (some yi) := by
      rw [get?_of_form hit (by omega), hyi]
      rfl
    rcases lt_trichotomy x.1 yi.1 with hcmp | hcmp | hcmp
    · -- lessThan: scan stops, .inr i
      right
      refine ⟨i, ?_, le_refl _, by omega, ?_, ?_⟩
      · rw [insertLoop, if_pos hilt, hiti]
        dsimp only
        rw [if_neg (by rw [compareItems_eq_equal]; exact ne_of_lt hcmp),
          if_pos (compareItems_eq_lessThan.mpr hcmp)]
      · intro j h1 h2 _ _; omega
      · intro _ y hy
        rw [hyi] at hy
        rw [Option.some.injEq] at hy
        rw [← hy]
        exact hcmp
    · -- equal: found
      left
      refine ⟨i, yi, ?_, le_refl _, hilt, hyi, hcmp.symm, ?_⟩
      · rw [insertLoop, if_pos hilt, hiti]
        dsimp only
        rw [if_pos (compareItems_eq_equal.mpr hcmp)]
      · intro j h1 h2 _ _; omega
    · -- greaterThan: continue
      have hne1 : compareItems x yi ≠ equal :=
        fun h => absurd (compareItems_eq_equal.mp h) (ne_of_gt hcmp)
      have hne2 : compareItems x yi ≠ lessThan :=
        fun h => absurd (compareItems_eq_lessThan.mp h) (not_lt.mpr hcmp.le)
      have hstep : insertLoop x nn it i = insertLoop x nn it (i+1) := by
        rw [insertLoop, if_pos hilt, hiti]
        dsimp only
        rw [if_neg hne1, if_neg hne2]
      have hbound : ∀ j, i ≤ j → j < i + 1 → ∀ y : Item κ, L.get? j = some y → y.1 < x.1 := by
        intro j h1 h2 y hy
        have hji : j = i := by omega
        subst hji
        rw [hyi, Option.some.injEq] at hy
        rw [← hy]
        exact hcmp
      rcases ih (i+1) (by omega) (by omega) with
        ⟨p, curr, heq, hp1, hp2, hp3, hp4, hp5⟩ | ⟨p, heq, hp1, hp2, hp3, hp4⟩
      · left
        refine ⟨p, curr, by rw [hstep]; exact heq, by omega, hp2, hp3, hp4, ?_⟩
        intro j h1 h2 y hy
        rcases Nat.lt_or_ge j (i+1) with hj | hj
        · exact hbound j h1 hj y hy
        · exact hp5 j hj h2 y hy
      · right
        refine ⟨p, by rw [hstep]; exact heq, by omega, hp2, ?_, hp4⟩
        intro j h1 h2 y hy
        rcases Nat.lt_or_ge j (i+1) with hj | hj
        · exact hbound j h1 hj y hy
        · exact hp3 j hj h2 y hy

theorem insertLeafLoop_from {x : Item κ} {nn : Nat} {it : List (Option (Item κ))}
    {L : List (Item κ)} {rest : List (Option (Item κ))}
    (hit : it = L.map some ++ rest) (hL : L.length = nn) :
    ∀ i, i ≤ nn →
    (∃ p curr, insertLeafLoop x nn it i = .ok (p, some curr, it) ∧ i ≤ p ∧ p < nn ∧
      L.get? p = some curr ∧ curr.1 = x.1 ∧
      (∀ j, i ≤ j → j < p → ∀ y : Item κ, L.get? j = some y → y.1 < x.1)) ∨
    (∃ p, insertLeafLoop x nn it i = .ok (p, none, shiftRight it p) ∧ i ≤ p ∧ p < nn ∧
      (∀ j, i ≤ j → j < p → ∀ y : Item κ, L.get? j = some y → y.1 < x.1) ∧
      (∀ y : Item κ, L.get? p = some y → x.1 < y.1)) ∨
    (insertLeafLoop x nn it i = .ok (nn, none, it) ∧
      (∀ j, i ≤ j → j < nn → ∀ y : Item κ, L.get? j = some y → y.1 < x.1)) := by
  intro i hi
  generalize hk : nn - i = k
  induction k generalizing i with
  | zero =>
    have hieq : i = nn := by omega
    subst hieq
    right; right
    constructor
    · rw [insertLeafLoop]
      rw [if_neg (lt_irrefl i)]
    · intro j h1 h2 _ _; omega
  | succ k ih =>
    have hilt : i < nn := by omega
    obtain ⟨yi, hyi⟩ : ∃ yi, L.get? i = some yi := by
      rcases List.get?_eq_some.mpr ⟨(by omega : i < L.length), rfl⟩ with h
      exact ⟨_, h⟩
    have hiti : it.get? i = some (some yi) := by
      rw [get?_of_form hit (by omega), hyi]
      rfl
    rcases lt_trichotomy x.1 yi.1 with hcmp | hcmp | hcmp
    · right; left
      refine ⟨i, ?_, le_refl _, hilt, ?_, ?_⟩
      · rw [insertLeafLoop, if_pos hilt, hiti]
        dsimp only
        rw [if_neg (by rw [compareItems_eq_equal]; exact ne_of_lt hcmp),
          if_pos (compareItems_eq_lessThan.mpr hcmp)]
      · intro j h1 h2 _ _; omega
      · intro y hy
        rw [hyi, Option.some.injEq] at hy
        rw [← hy]
        exact hcmp
    · left
      refine ⟨i, yi, ?_, le_refl _, hilt, hyi, hcmp.symm, ?_⟩
      · rw [insertLeafLoop, if_pos hilt, hiti]
        dsimp only
        rw [if_pos (compareItems_eq_equal.mpr hcmp)]
      · intro j h1 h2 _ _; omega
    · have hne1 : compareItems x yi ≠ equal :=
        fun h => absurd (compareItems_eq_equal.mp h) (ne_of_gt hcmp)
      have hne2 : compareItems x yi ≠ lessThan :=
        fun h => absurd (compareItems_eq_lessThan.mp h) (not_lt.mpr hcmp.le)
      have hstep : insertLeafLoop x nn it i = insertLeafLoop x nn it (i+1) := by
        rw [insertLeafLoop, if_pos hilt, hiti]
        dsimp only
        rw [if_neg hne1, if_neg hne2]
      have hbound : ∀ j, i ≤ j → j < i + 1 → ∀ y : Item κ, L.get? j = some y → y.1 < x.1 := by
        intro j h1 h2 y hy
        have hji : j = i := by omega
        subst hji
        rw [hyi, Option.some.injEq] at hy
        rw [← hy]
        exact hcmp
      rcases ih (i+1) (by omega) (by omega) with
        ⟨p, curr, heq, hp1, hp2, hp3, hp4, hp5⟩ | ⟨p, heq, hp1, hp2, hp3, hp4⟩ | ⟨heq, hp⟩
      · left
        refine ⟨p, curr, by rw [hstep]; exact heq, by omega, hp2, hp3, hp4, ?_⟩
        intro j h1 h2 y hy
        rcases Nat.lt_or_ge j (i+1) with hj | hj
        · exact hbound j h1 hj y hy
        · exact hp5 j hj h2 y hy
      · right; left
        refine ⟨p, by rw [hstep]; exact heq, by omega, hp2, ?_, hp4⟩
        intro j h1 h2 y hy
        rcases Nat.lt_or_ge j (i+1) with hj | hj
        · exact hbound j h1 hj y hy
        · exact hp3 j hj h2 y hy
      · right; right
        refine ⟨by rw [hstep]; exact heq, ?_⟩
        intro j h1 h2 y hy
        rcases Nat.lt_or_ge j (i+1) with hj | hj
        · exact hbound j h1 hj y hy
        · exact hp j hj h2 y hy

end node

theorem drop_replicate {α : Type} (a : α) : ∀ (n k : Nat),
    (List.replicate n a).drop k = List.replicate (n - k) a := by
  intro n
  induction n with
  | zero => intro k; simp
  | succ m ih =>
    intro k
    match k with
    | 0 => simp
    | j+1 =>
      rw [List.replicate_succ, List.drop_succ_cons, ih j]
      congr 1
      omega

namespace node

variable {κ : Type} [LinearOrder κ]

theorem insertLeaf_spec {t nn : Nat} {it : List (Option (Item κ))}
    {cs : List (Option (node κ))} {L : List (Item κ)}
    {rest : List (Option (Item κ))} {x : Item κ}
    (hit : it = L.map some ++ rest) (hL : L.length = nn)
    (hitlen : it.length = 2*t - 1) (hnotfull : nn < 2*t - 1)
    (hsorted : ItemsAsc L) :
    ∃ rest' : List (Option (Item κ)),
      insertLeaf (node.mk true nn it cs) x =
        .ok (lookupK x L,
          node.mk true (if lookupK x L = none then nn + 1 else nn)
            ((upsert x L).map some ++ rest') cs) ∧
      ((upsert x L).map some ++ rest').length = 2*t - 1 := by
  have hrestlen : rest.length = 2*t - 1 - nn := by
    have := length_of_form hit
    omega
  have hrest1 : 1 ≤ rest.length := by omega
  rcases insertLeafLoop_from hit hL 0 (Nat.zero_le _) with
    ⟨p, curr, heq, _, hp2, hp3, hp4, hp5⟩ | ⟨p, heq, _, hp2, hp3, hp4⟩ | ⟨heq, hp⟩
  · -- equal at p: replace in place
    have hA : ∀ a ∈ L.take p, a.1 < x.1 := by
      intro a ha
      rcases mem_take_exists_get? ha with ⟨j, hj, hjg⟩
      exact hp5 j (Nat.zero_le _) hj a hjg
    have hdecomp : L = L.take p ++ curr :: L.drop (p+1) := by
      have h1 : L.drop p = curr :: L.drop (p+1) := by
        rw [List.drop_eq_getElem_cons (by omega)]
        rw [List.get?_eq_getElem?, List.getElem?_eq_getElem (by omega : p < L.length),
          Option.some.injEq] at hp3
        rw [hp3]
      rw [← h1, List.take_append_drop]
    have hlook : lookupK x L = some curr := by
      conv_lhs => rw [hdecomp]
      exact lookupK_append_replace hA hp4
    have hups : upsert x L = L.take p ++ x :: L.drop (p+1) := by
      conv_lhs => rw [hdecomp]
      exact upsert_append_replace hA hp4
    have hsetL : L.set p x = L.take p ++ x :: L.drop (p+1) := by
      conv_lhs => rw [← List.take_append_drop p (L.set p x)]
      rw [take_set_self, drop_set_self (show p < L.length by omega)]
    have hset : it.set p (some x) = (upsert x L).map some ++ rest := by
      rw [set_of_form hit (by omega) x, hsetL, ← hups]
    refine ⟨rest, ?_, ?_⟩
    · simp only [insertLeaf]
      rw [heq]
      dsimp only
      rw [if_pos (by rw [hitlen]; omega), hlook]
      rw [hset]
    · rw [← hset]
      rw [List.length_set, hitlen]
  · -- fresh insert at p < nn
    have hA : ∀ a ∈ L.take p, a.1 < x.1 := by
      intro a ha
      rcases mem_take_exists_get? ha with ⟨j, hj, hjg⟩
      exact hp3 j (Nat.zero_le _) hj a hjg
    have hS : ∀ s ∈ L.drop p, x.1 < s.1 :=
      sorted_drop_bound hsorted (by omega) hp4
    have hlook : lookupK x L = none := by
      rw [lookupK_eq_none_iff]
      intro y hy
      rw [← List.take_append_drop p L] at hy
      rcases List.mem_append.mp hy with hy | hy
      · exact ne_of_lt (hA y hy)
      · exact ne_of_gt (hS y hy)
    have hups : upsert x L = L.take p ++ x :: L.drop p := by
      conv_lhs => rw [← List.take_append_drop p L]
      have h0 : L.take p ++ L.drop p = L.take p ++ [] ++ L.drop p := by simp
      rw [h0, upsert_append_mid hA hS]
      simp [upsert]
    have hset : (shiftRight it p).set p (some x) = (upsert x L).map some ++
        rest.take (rest.length - 1) := by
      rw [shiftRight_set_of_form hit (by omega) hrest1 x]
      rw [insertIdx_eq_take_cons_drop L p (by omega) x, ← hups]
    refine ⟨rest.take (rest.length - 1), ?_, ?_⟩
    · simp only [insertLeaf]
      rw [heq]
      dsimp only
      rw [if_pos (by rw [length_shiftRight, hitlen]; omega), hlook]
      rw [hset]
    · rw [← hset]
      rw [List.length_set, length_shiftRight, hitlen]
  · -- scan exhausted: append at position nn
    have hA : ∀ a ∈ L, a.1 < x.1 := by
      intro a ha
      rcases List.mem_iff_get?.mp ha with ⟨j, hj⟩
      have hjlen : j < L.length := by
        by_contra hcon
        rw [List.get?_eq_getElem?, List.getElem?_eq_none (by omega)] at hj
        cases hj
      exact hp j (Nat.zero_le _) (by omega) a hj
    have hlook : lookupK x L = none := by
      rw [lookupK_eq_none_iff]
      intro y hy
      exact ne_of_lt (hA y hy)
    have hups : upsert x L = L ++ [x] := by
      have h0 : upsert x (L ++ [] ++ []) = L ++ upsert x [] ++ [] :=
        upsert_append_mid hA (by intro s hs; cases hs)
      simp only [List.append_nil] at h0
      rw [h0]
      rfl
    obtain ⟨r0, rest2, hrest2⟩ : ∃ r0 rest2, rest = r0 :: rest2 := by
      match rest, hrest1 with
      | r0 :: rest2, _ => exact ⟨r0, rest2, rfl⟩
    have hset : it.set nn (some x) = (upsert x L).map some ++ rest2 := by
      rw [hit, List.set_append_right _ _ (by simp [hL]), hrest2]
      have h1 : nn - (List.map some L).length = 0 := by simp [hL]
      rw [h1, hups]
      simp
    refine ⟨rest2, ?_, ?_⟩
    · simp only [insertLeaf]
      rw [heq]
      dsimp only
      rw [if_pos (by rw [hitlen]; omega), hlook]
      rw [hset]
    · rw [← hset]
      rw [List.length_set, hitlen]

end node

theorem mem_take_mono {α : Type} {l : List α} {j k : Nat} (hjk : j ≤ k) {a : α}
    (ha : a ∈ l.take j) : a ∈ l.take k := by
  have h : l.take j = (l.take k).take j := by rw [List.take_take, min_eq_left hjk]
  rw [h] at ha
  exact List.mem_of_mem_take ha

namespace node

variable {κ : Type} [LinearOrder κ]

theorem splitChild_spec {t nn i : Nat} {it : List (Option (Item κ))}
    {cs : List (Option (node κ))} {L : List (Item κ)}
    {restI : List (Option (Item κ))} {C : List (node κ)} {restC : List (Option (node κ))}
    (ht : 2 ≤ t)
    (hit : it = L.map some ++ restI) (hL : L.length = nn)
    (hcs : cs = C.map some ++ restC) (hC : C.length = nn + 1)
    (hitlen : it.length = 2*t - 1) (hcslen : cs.length = 2*t)
    (hnotfull : nn < 2*t - 1) (hi : i ≤ nn)
    {y : node κ} (hy : C.get? i = some y) (hyfull : y.n = 2*t - 1)
    (hywf : WFN t y) :
    ∃ (med : Item κ) (y1 z : node κ) (restI' : List (Option (Item κ)))
      (restC' : List (Option (node κ))),
      splitChild t (node.mk false nn it cs) i =
        .ok (some med, node.mk false (nn+1)
          ((L.insertIdx i med).map some ++ restI')
          (((C.set i y1).insertIdx (i+1) z).map some ++ restC')) ∧
      ((L.insertIdx i med).map some ++ restI').length = 2*t - 1 ∧
      (((C.set i y1).insertIdx (i+1) z).map some ++ restC').length = 2*t ∧
      y1.isLeaf = y.isLeaf ∧ z.isLeaf = y.isLeaf ∧ y1.n = t-1 ∧ z.n = t-1 ∧
      WFN t y1 ∧ WFN t z ∧
      inorder y1 ++ med :: inorder z = inorder y ∧
      (liveItems y).get? (t-1) = some med ∧
      (∀ hb : Nat, Bal y hb → Bal y1 hb ∧ Bal z hb) ∧
      (MinOcc t y → MinOcc t y1 ∧ MinOcc t z) ∧
      y1.liveItems = y.liveItems.take (t-1) ∧
      z.liveItems = y.liveItems.drop t ∧
      (y.isLeaf = false → y1.liveChildren = y.liveChildren.take t ∧
        z.liveChildren = y.liveChildren.drop t) := by
  obtain ⟨ylf, yn, yit, ycs⟩ := y
  simp only [node.n_mk] at hyfull
  subst hyfull
  cases hywf with
  | mk _ _ _ _ hYitLen hYnn hYit hYcsLeaf hYcsLen hYcs hYrec =>
  obtain ⟨yL, yrest, hyitform, hyLlen⟩ := hYit
  have hyrestnil : yrest = [] := by
    have h1 := length_of_form hyitform
    rw [hYitLen, hyLlen] at h1
    exact List.eq_nil_of_length_eq_zero (by omega)
  subst hyrestnil
  have hyit2 : yit = yL.map some := by rw [hyitform, List.append_nil]
  have hyitform2 : yit = yL.map some ++ [] := hyitform
  have hyL2t : yL.length = 2*t - 1 := hyLlen
  have hycsE : ylf = false → ∃ yC : List (node κ), ycs = yC.map some ∧
      yC.length = 2*t := by
    intro hf
    obtain ⟨yC, yrestC, hyC, hyClen⟩ := hYcs hf
    have h1 : ycs.length = yC.length + yrestC.length := by rw [hyC]; simp
    have h2 : yrestC = [] := by
      apply List.eq_nil_of_length_eq_zero
      have := hYcsLen hf
      omega
    subst h2
    exact ⟨yC, by rw [hyC, List.append_nil], by omega⟩
  obtain ⟨med, hmedL⟩ : ∃ m, yL.get? (t-1) = some m := by
    have h1 : t - 1 < yL.length := by omega
    exact ⟨yL.get ⟨t-1, h1⟩, List.get?_eq_some.mpr ⟨h1, rfl⟩⟩
  have hmedit : yit.get? (t-1) = some (some med) := by
    rw [get?_of_form hyitform2 (by omega), hmedL]
    rfl
  have hrestIlen : restI.length = 2*t - 1 - nn := by
    have := length_of_form hit
    omega
  have hrestClen : restC.length = 2*t - (nn+1) := by
    have h1 : cs.length = C.length + restC.length := by rw [hcs]; simp
    omega
  have hcsi : cs.get? i = some (some (node.mk ylf (2*t-1) yit ycs)) := by
    rw [get?_of_form hcs (by omega), hy]
    rfl
  have hzit : goCopy (List.replicate (2*t-1) (none : Option (Item κ))) (yit.drop t) =
      (yL.drop t).map some ++ List.replicate t (none : Option (Item κ)) := by
    rw [hyit2, ← List.map_drop]
    rw [goCopy_of_le (by simp; omega)]
    rw [drop_replicate]
    congr 2
    simp
    omega
  have hzcsE : ylf = false → ∀ yC : List (node κ), ycs = yC.map some →
      yC.length = 2*t →
      zChildren t ylf ycs = (yC.drop t).map some ++
        List.replicate t (none : Option (node κ)) := by
    intro hf yC hyC hyClen
    unfold zChildren
    rw [if_neg (by rw [hf]; simp)]
    rw [hyC, ← List.map_drop, goCopy_of_le (by simp; omega), drop_replicate]
    congr 2
    simp
    omega
  set zit := goCopy (List.replicate (2*t-1) (none : Option (Item κ))) (yit.drop t)
    with hzitdef
  set y1 : node κ := node.mk ylf (t-1) yit ycs with hy1def
  set z : node κ := node.mk ylf (t-1) zit (zChildren t ylf ycs) with hzdef
  have hsetI : (shiftRight it i).set i (some med) =
      (L.insertIdx i med).map some ++ restI.take (restI.length - 1) :=
    shiftRight_set_of_form hit (by omega) (by omega) med
  have hcsset : cs.set i (some y1) = (C.set i y1).map some ++ restC :=
    set_of_form hcs (by omega) y1
  have hsetC : (shiftRight (cs.set i (some y1)) (i+1)).set (i+1) (some z) =
      ((C.set i y1).insertIdx (i+1) z).map some ++ restC.take (restC.length - 1) :=
    shiftRight_set_of_form hcsset (by rw [List.length_set]; omega) (by omega) z
  have hliveI : (node.mk ylf (2*t-1) yit ycs).liveItems = yL :=
    liveItems_eq hyitform2 (by omega)
  refine ⟨med, y1, z, restI.take (restI.length - 1), restC.take (restC.length - 1),
    ?_, ?_, ?_, rfl, rfl, rfl, rfl, ?_, ?_, ?_, ?_, ?_, ?_, ?_, ?_, ?_⟩
  · rw [splitChild]
    dsimp only
    rw [hcsi]
    dsimp only
    rw [hmedit]
    dsimp only
    rw [if_pos (by rw [hYitLen]; omega)]
    rw [if_pos (by
      rcases ylf with _ | _
      · right
        rw [hYcsLen rfl]
        omega
      · left
        rfl)]
    rw [if_pos (by rw [hitlen]; omega), if_pos (by rw [hcslen]; omega)]
    rw [hsetI, hsetC]
  · rw [← hsetI, List.length_set, length_shiftRight, hitlen]
  · rw [← hsetC, List.length_set, length_shiftRight, List.length_set, hcslen]
  · -- WFN y1
    refine WFN.mk ylf (t-1) yit ycs hYitLen (by omega) ?_ hYcsLeaf hYcsLen ?_ ?_
    · refine ⟨yL.take (t-1), (yL.drop (t-1)).map some, ?_, ?_⟩
      · rw [hyit2, List.map_take, List.map_drop, List.take_append_drop]
      · rw [List.length_take]
        omega
    · intro hf
      obtain ⟨yC, hyC, hyClen⟩ := hycsE hf
      refine ⟨yC.take t, (yC.drop t).map some, ?_, ?_⟩
      · rw [hyC, List.map_take, List.map_drop, List.take_append_drop]
      · rw [List.length_take]
        omega
    · intro c hc
      exact hYrec c (mem_take_mono (by omega) hc)
  · -- WFN z
    refine WFN.mk ylf (t-1) zit (zChildren t ylf ycs) ?_ (by omega) ?_ ?_ ?_ ?_ ?_
    · rw [hzitdef]
      simp
    · refine ⟨yL.drop t, List.replicate t none, hzit, ?_⟩
      rw [List.length_drop]
      omega
    · intro hf
      unfold zChildren
      rw [if_pos hf]
    · intro hf
      obtain ⟨yC, hyC, hyClen⟩ := hycsE hf
      rw [hzcsE hf yC hyC hyClen]
      simp
      omega
    · intro hf
      obtain ⟨yC, hyC, hyClen⟩ := hycsE hf
      refine ⟨yC.drop t, List.replicate t none, hzcsE hf yC hyC hyClen, ?_⟩
      rw [List.length_drop]
      omega
    · intro c hc
      by_cases hf : ylf = true
      · unfold zChildren at hc
        rw [if_pos hf] at hc
        simp at hc
      · have hf2 : ylf = false := by
          rcases ylf with _ | _
          · rfl
          · exact absurd rfl hf
        obtain ⟨yC, hyC, hyClen⟩ := hycsE hf2
        rw [hzcsE hf2 yC hyC hyClen] at hc
        have hc2 : some c ∈ (yC.drop t).map some := by
          have htake : ((yC.drop t).map some ++
              List.replicate t (none : Option (node κ))).take (t-1+1) =
              ((yC.drop t).map some).take (t-1+1) ++
              (List.replicate t (none : Option (node κ))).take (t-1+1 -
                ((yC.drop t).map some).length) := List.take_append_eq_append_take
          rw [htake] at hc
          rcases List.mem_append.mp hc with hc | hc
          · exact List.mem_of_mem_take hc
          · exact absurd (List.eq_of_mem_replicate (List.mem_of_mem_take hc)) (by simp)
        rcases List.mem_map.mp hc2 with ⟨c2, hc2m, hc2e⟩
        rw [Option.some.injEq] at hc2e
        subst hc2e
        apply hYrec
        rw [List.take_of_length_le (by rw [hYcsLen hf2]; omega)]
        rw [hyC]
        exact List.mem_map.mpr ⟨c2, List.mem_of_mem_drop hc2m, rfl⟩
  · -- inorder split equation
    have hdropL : yL.drop (t-1) = med :: yL.drop t := by
      conv_lhs => rw [List.drop_eq_getElem_cons (show t-1 < yL.length by omega)]
      congr 1
      · rw [List.get?_eq_getElem?,
          List.getElem?_eq_getElem (show t-1 < yL.length by omega),
          Option.some.injEq] at hmedL
        exact hmedL
      · congr 1
        omega
    by_cases hf : ylf = true
    · subst hf
      have hycsnil : ycs = [] := hYcsLeaf rfl
      subst hycsnil
      have h1 : inorder (node.mk true (2*t-1) yit ([] : List (Option (node κ)))) = yL :=
        inorder_form_leaf hyitform2 (by omega)
      have h2 : inorder y1 = yL.take (t-1) := by
        rw [hy1def]
        have hform : yit = List.map some (yL.take (t-1)) ++ (yL.drop (t-1)).map some := by
          rw [hyit2, List.map_take, List.map_drop, List.take_append_drop]
        exact inorder_form_leaf hform (by rw [List.length_take]; omega)
      have h3 : inorder z = yL.drop t := by
        rw [hzdef]
        have hzc : zChildren t true ([] : List (Option (node κ))) = [] := by
          unfold zChildren
          rw [if_pos rfl]
        rw [hzc]
        exact inorder_form_leaf hzit (by rw [List.length_drop]; omega)
      rw [h1, h2, h3, ← hdropL, List.take_append_drop]
    · have hf2 : ylf = false := by
        rcases ylf with _ | _
        · rfl
        · exact absurd rfl hf
      subst hf2
      obtain ⟨yC, hyC, hyClen⟩ := hycsE rfl
      have hMdef : t - 1 < (yC.map inorder).length := by simp; omega
      set M := (yC.map inorder)[t-1] with hMdef2
      have hdropCs : (yC.map inorder).drop (t-1) = M :: (yC.map inorder).drop t := by
        have h9 : t - 1 + 1 = t := by omega
        conv_lhs => rw [List.drop_eq_getElem_cons hMdef, h9]
      have h1 : inorder (node.mk false (2*t-1) yit ycs) =
          joinInter (yC.map inorder) yL :=
        inorder_form_internal hyitform2 (by omega)
          (show ycs = List.map some yC ++ [] by rw [hyC, List.append_nil]) (by omega)
      have h2 : inorder y1 = joinInter ((yC.take t).map inorder) (yL.take (t-1)) := by
        rw [hy1def]
        have hformI : yit = List.map some (yL.take (t-1)) ++ (yL.drop (t-1)).map some := by
          rw [hyit2, List.map_take, List.map_drop, List.take_append_drop]
        have hformC : ycs = List.map some (yC.take t) ++ (yC.drop t).map some := by
          rw [hyC, List.map_take, List.map_drop, List.take_append_drop]
        apply inorder_form_internal hformI (by rw [List.length_take]; omega)
          hformC (by rw [List.length_take]; omega)
      have h3 : inorder z = joinInter ((yC.drop t).map inorder) (yL.drop t) := by
        rw [hzdef]
        apply inorder_form_internal hzit (by rw [List.length_drop]; omega)
          (hzcsE rfl yC hyC hyClen) (by rw [List.length_drop]; omega)
      rw [h1, h2, h3]
      have hRHS : joinInter (yC.map inorder) yL =
          prefixJoin ((yC.map inorder).take (t-1)) (yL.take (t-1)) ++ M ++
            med :: joinInter ((yC.map inorder).drop t) (yL.drop t) := by
        apply joinInter_split_at_cons (yC.map inorder) yL (t-1)
          (by simp; omega) hdropCs hdropL
      have hLHS : joinInter ((yC.take t).map inorder) (yL.take (t-1)) =
          prefixJoin ((yC.map inorder).take (t-1)) (yL.take (t-1)) ++ M := by
        have hdt : (yC.take t).drop (t-1) = [yC[t-1]] := by
          have h5 : t - 1 < (yC.take t).length := by
            rw [List.length_take]
            omega
          rw [List.drop_eq_getElem_cons h5]
          have h6 : (yC.take t).drop (t-1+1) = [] := by
            apply List.drop_eq_nil_of_le
            rw [List.length_take]
            omega
          rw [h6]
          congr 1
          exact List.getElem_take _
        have hd1 : ((yC.take t).map inorder).drop (t-1) = M :: [] := by
          rw [← List.map_drop, hdt, hMdef2]
          simp only [List.map_cons, List.map_nil]
          congr 1
          rw [List.getElem_map]
        have hd2 : (yL.take (t-1)).drop (t-1) = [] := by
          apply List.drop_eq_nil_of_le
          rw [List.length_take]
          omega
        have := joinInter_split_at_nil ((yC.take t).map inorder) (yL.take (t-1)) (t-1)
          (by rw [List.length_map, List.length_take, List.length_take]; omega)
          hd1 hd2
        rw [this]
        congr 2
        · simp only [← List.map_take, List.take_take]
          rw [min_eq_left (by omega)]
        · rw [List.take_take, min_self]
      rw [hLHS, List.map_drop, hRHS]
  · rw [hliveI]
    exact hmedL
  · -- balance is preserved and shared by both halves
    intro hb hbal
    cases hbal with
    | leaf =>
      exact ⟨Bal.leaf _ _ _, Bal.leaf _ _ _⟩
    | internal _ _ _ h hch =>
      constructor
      · exact Bal.internal _ _ _ h (fun c hc => hch c (mem_take_mono (by omega) hc))
      · apply Bal.internal _ _ _ h
        intro c hc
        obtain ⟨yC, hyC, hyClen⟩ := hycsE rfl
        rw [hzcsE rfl yC hyC hyClen] at hc
        have hc2 : some c ∈ (yC.drop t).map some := by
          have htake : ((yC.drop t).map some ++
              List.replicate t (none : Option (node κ))).take (t-1+1) =
              ((yC.drop t).map some).take (t-1+1) ++
              (List.replicate t (none : Option (node κ))).take (t-1+1 -
                ((yC.drop t).map some).length) := List.take_append_eq_append_take
          rw [htake] at hc
          rcases List.mem_append.mp hc with hc | hc
          · exact List.mem_of_mem_take hc
          · exact absurd (List.eq_of_mem_replicate (List.mem_of_mem_take hc)) (by simp)
        rcases List.mem_map.mp hc2 with ⟨c2, hc2m, hc2e⟩
        rw [Option.some.injEq] at hc2e
        subst hc2e
        apply hch
        rw [List.take_of_length_le (by rw [hYcsLen rfl]; omega)]
        rw [hyC]
        exact List.mem_map.mpr ⟨c2, List.mem_of_mem_drop hc2m, rfl⟩
  · -- minimum occupancy is preserved
    intro hmo
    cases hmo with
    | mk _ _ _ _ hlow hrec =>
      constructor
      · refine MinOcc.mk _ _ _ _ ?_ ?_
        · exact fun c hc => hlow c (mem_take_mono (by omega) hc)
        · exact fun c hc => hrec c (mem_take_mono (by omega) hc)
      · by_cases hf : ylf = true
        · refine MinOcc.mk _ _ _ _ ?_ ?_ <;>
          · intro c hc
            unfold zChildren at hc
            rw [if_pos hf] at hc
            simp at hc
        · have hf2 : ylf = false := by
            rcases ylf with _ | _
            · rfl
            · exact absurd rfl hf
          obtain ⟨yC, hyC, hyClen⟩ := hycsE hf2
          have hmem : ∀ c : node κ, some c ∈ (zChildren t ylf ycs).take (t-1+1) →
              some c ∈ ycs.take (2*t-1+1) := by
            intro c hc
            rw [hzcsE hf2 yC hyC hyClen] at hc
            have hc2 : some c ∈ (yC.drop t).map some := by
              have htake : ((yC.drop t).map some ++
                  List.replicate t (none : Option (node κ))).take (t-1+1) =
                  ((yC.drop t).map some).take (t-1+1) ++
                  (List.replicate t (none : Option (node κ))).take (t-1+1 -
                    ((yC.drop t).map some).length) := List.take_append_eq_append_take
              rw [htake] at hc
              rcases List.mem_append.mp hc with hc | hc
              · exact List.mem_of_mem_take hc
              · exact absurd (List.eq_of_mem_replicate (List.mem_of_mem_take hc))
                  (by simp)
            rcases List.mem_map.mp hc2 with ⟨c2, hc2m, hc2e⟩
            rw [Option.some.injEq] at hc2e
            subst hc2e
            rw [List.take_of_length_le (by rw [hYcsLen hf2]; omega)]
            rw [hyC]
            exact List.mem_map.mpr ⟨c2, List.mem_of_mem_drop hc2m, rfl⟩
          refine MinOcc.mk _ _ _ _ ?_ ?_
          · exact fun c hc => hlow c (hmem c hc)
          · exact fun c hc => hrec c (hmem c hc)
  · -- y1 keeps y's first t-1 items
    rw [hliveI, hy1def]
    have hform2 : yit = List.map some (yL.take (t-1)) ++ (yL.drop (t-1)).map some := by
      rw [hyit2, List.map_take, List.map_drop, List.take_append_drop]
    exact liveItems_eq hform2 (by rw [List.length_take]; omega)
  · -- z takes y's items from index t on
    rw [hliveI, hzdef]
    exact liveItems_eq hzit (by rw [List.length_drop]; omega)
  · -- child slices of the two halves (internal case)
    intro hf
    have hf2 : ylf = false := by simpa using hf
    obtain ⟨yC, hyC, hyClen⟩ := hycsE hf2
    have hly : (node.mk ylf (2*t-1) yit ycs).liveChildren = yC :=
      liveChildren_eq (show ycs = List.map some yC ++ [] by
        rw [hyC, List.append_nil]) (by omega)
    constructor
    · rw [hly, hy1def]
      have hformC2 : ycs = List.map some (yC.take t) ++ (yC.drop t).map some := by
        rw [hyC, List.map_take, List.map_drop, List.take_append_drop]
      exact liveChildren_eq hformC2 (by rw [List.length_take]; omega)
    · rw [hly, hzdef]
      exact liveChildren_eq (hzcsE hf2 yC hyC hyClen) (by rw [List.length_drop]; omega)

end node

theorem joinInter_split_insert {α : Type} :
    ∀ (p : Nat) (Cs : List (List α)) (Xs : List α), p ≤ Xs.length →
    Cs.length = Xs.length + 1 → ∀ (M0 M1 M2 : List α) (m : α),
    Cs.get? p = some M0 → M1 ++ m :: M2 = M0 →
    joinInter ((Cs.set p M1).insertIdx (p+1) M2) (Xs.insertIdx p m) =
      joinInter Cs Xs := by
  intro p
  induction p with
  | zero =>
    intro Cs Xs _ hlen M0 M1 M2 m hM0 hsplit
    cases Cs with
    | nil => simp at hlen
    | cons c Cs' =>
      have hc : c = M0 := by
        rw [List.get?_eq_getElem?] at hM0
        simp at hM0
        exact hM0
      subst hc
      rw [List.set_cons_zero]
      rw [show (M1 :: Cs').insertIdx (0+1) M2 = M1 :: M2 :: Cs' from rfl]
      rw [List.insertIdx_zero]
      cases Xs with
      | nil =>
        rw [joinInter_cons_cons, joinInter_cons_nil, joinInter_cons_nil]
        rw [← hsplit]
      | cons x Xs' =>
        rw [joinInter_cons_cons, joinInter_cons_cons, joinInter_cons_cons, ← hsplit]
        simp
  | succ q ih =>
    intro Cs Xs hp hlen M0 M1 M2 m hM0 hsplit
    cases Xs with
    | nil => simp at hp
    | cons x Xs' =>
      cases Cs with
      | nil => simp at hlen
      | cons c Cs' =>
        rw [List.set_cons_succ, List.insertIdx_succ_cons, List.insertIdx_succ_cons]
        rw [joinInter_cons_cons, joinInter_cons_cons]
        rw [ih Cs' Xs' (by simpa using hp) (by simpa using hlen) M0 M1 M2 m
          (by simpa using hM0) hsplit]

theorem get?_insertIdx_lt {α : Type} {l : List α} {k : Nat} (hk : k ≤ l.length)
    (a : α) {j : Nat} (hj : j < k) :
    (l.insertIdx k a).get? j = l.get? j := by
  rw [insertIdx_eq_take_cons_drop l k hk a]
  rw [List.get?_append (by rw [List.length_take]; omega)]
  exact List.get?_take hj

theorem get?_insertIdx_self {α : Type} {l : List α} {k : Nat} (hk : k ≤ l.length)
    (a : α) : (l.insertIdx k a).get? k = some a := by
  rw [insertIdx_eq_take_cons_drop l k hk a]
  rw [List.get?_append_right (by rw [List.length_take]; omega)]
  rw [List.length_take, min_eq_left hk, Nat.sub_self]
  rfl

theorem get?_insertIdx_succ {α : Type} {l : List α} {k : Nat} (hk : k ≤ l.length)
    (a : α) : (l.insertIdx k a).get? (k+1) = l.get? k := by
  rw [insertIdx_eq_take_cons_drop l k hk a]
  rw [List.get?_append_right (by rw [List.length_take]; omega)]
  rw [List.length_take, min_eq_left hk]
  have h1 : k + 1 - k = 1 := by omega
  rw [h1]
  rw [show ((a :: l.drop k).get? 1) = (l.drop k).get? 0 from rfl]
  rw [List.get?_drop]
  rfl

theorem get?_set_self {α : Type} {l : List α} {p : Nat} (hp : p < l.length) (a : α) :
    (l.set p a).get? p = some a := by
  rw [List.get?_eq_getElem?]
  rw [List.getElem?_set_self hp]

theorem sublist_mid {α : Type} (A M S : List α) : M.Sublist (A ++ M ++ S) := by
  have h1 : M.Sublist (M ++ S) := List.sublist_append_left _ _
  have h2 : (M ++ S).Sublist (A ++ (M ++ S)) := List.sublist_append_right _ _
  rw [← List.append_assoc] at h2
  exact h1.trans h2

theorem map_insertIdx {α β : Type} (f : α → β) (l : List α) (k : Nat)
    (hk : k ≤ l.length) (a : α) :
    (l.insertIdx k a).map f = (l.map f).insertIdx k (f a) := by
  rw [insertIdx_eq_take_cons_drop l k hk a,
    insertIdx_eq_take_cons_drop (l.map f) k (by simpa using hk) (f a)]
  simp

namespace node

variable {κ : Type} [LinearOrder κ]

theorem insert_descend {t h' : Nat} {x : Item κ} (ht : 2 ≤ t)
    (IH : ∀ (nd : node κ), WFN t nd → Bal nd h' → MinOcc t nd →
      ItemsAsc (inorder nd) → nd.n < 2*t - 1 →
      ∃ nd', node.insert t nd x = .ok (lookupK x (inorder nd), nd') ∧
        WFN t nd' ∧ Bal nd' h' ∧ MinOcc t nd' ∧ ItemsAsc (inorder nd') ∧
        inorder nd' = upsert x (inorder nd) ∧
        nd.n ≤ nd'.n ∧ nd'.n ≤ nd.n + 1 ∧ nd'.isLeaf = nd.isLeaf)
    {m : Nat} {it0 : List (Option (Item κ))} {cs0 : List (Option (node κ))}
    {L0 : List (Item κ)} {restI0 : List (Option (Item κ))}
    {C0 : List (node κ)} {restC0 : List (Option (node κ))} {p : Nat} {c0 : node κ}
    (hit0 : it0 = L0.map some ++ restI0) (hL0 : L0.length = m)
    (hcs0 : cs0 = C0.map some ++ restC0) (hC0 : C0.length = m + 1)
    (hit0len : it0.length = 2*t - 1) (hcs0len : cs0.length = 2*t)
    (hm : m ≤ 2*t - 1)
    (hwfmem : ∀ c : node κ, some c ∈ cs0.take (m+1) → WFN t c)
    (hbalmem : ∀ c : node κ, some c ∈ cs0.take (m+1) → Bal c h')
    (hlowmem : ∀ c : node κ, some c ∈ cs0.take (m+1) → t - 1 ≤ c.n)
    (hmomem : ∀ c : node κ, some c ∈ cs0.take (m+1) → MinOcc t c)
    (hasc : ItemsAsc (inorder (node.mk false m it0 cs0)))
    (hp : p ≤ m) (hc0p : C0.get? p = some c0) (hc0nf : c0.n < 2*t - 1)
    (hlow : ∀ j, j < p → ∀ y : Item κ, L0.get? j = some y → y.1 < x.1)
    (hhigh : ∀ y : Item κ, L0.get? p = some y → x.1 < y.1) :
    ∃ c1 : node κ,
      node.insert t c0 x = .ok (lookupK x (inorder (node.mk false m it0 cs0)), c1) ∧
      WFN t (node.mk false m it0 (cs0.set p (some c1))) ∧
      Bal (node.mk false m it0 (cs0.set p (some c1))) (h'+1) ∧
      MinOcc t (node.mk false m it0 (cs0.set p (some c1))) ∧
      ItemsAsc (inorder (node.mk false m it0 (cs0.set p (some c1)))) ∧
      inorder (node.mk false m it0 (cs0.set p (some c1))) =
        upsert x (inorder (node.mk false m it0 cs0)) := by
  have hio : inorder (node.mk false m it0 cs0) = joinInter (C0.map inorder) L0 :=
    inorder_form_internal hit0 hL0 hcs0 hC0
  have hlenCX : (C0.map inorder).length = L0.length + 1 := by simp [hC0, hL0]
  have hsorted0 : ItemsAsc (joinInter (C0.map inorder) L0) := by rw [← hio]; exact hasc
  obtain ⟨A, S, hsetEq, horigEq, hA, hS⟩ :=
    descend_decomp (by omega : p ≤ L0.length) hlenCX hsorted0 hlow hhigh
  have horig : inorder (node.mk false m it0 cs0) = A ++ inorder c0 ++ S := by
    rw [hio]
    exact horigEq (inorder c0) (by rw [List.get?_map, hc0p]; rfl)
  have hc0mem : some c0 ∈ cs0.take (m+1) :=
    (mem_take_of_form hcs0 hC0).mpr (List.get?_mem hc0p)
  have hc0asc : ItemsAsc (inorder c0) := by
    have h1 : (inorder c0).Sublist (A ++ inorder c0 ++ S) := sublist_mid _ _ _
    have h2 := hasc
    rw [horig] at h2
    exact h2.sublist h1
  obtain ⟨c1, hceq, hcwf, hcbal, hcmo, hcasc, hcio, hcn1, hcn2, hclf⟩ :=
    IH c0 (hwfmem c0 hc0mem) (hbalmem c0 hc0mem) (hmomem c0 hc0mem) hc0asc hc0nf
  have hlookEq : lookupK x (inorder (node.mk false m it0 cs0)) =
      lookupK x (inorder c0) := by
    rw [horig]
    exact lookupK_append_mid hA hS
  have hnewcs : cs0.set p (some c1) = (C0.set p c1).map some ++ restC0 :=
    set_of_form hcs0 (by omega) c1
  have hnewio : inorder (node.mk false m it0 (cs0.set p (some c1))) =
      A ++ inorder c1 ++ S := by
    rw [inorder_form_internal hit0 hL0 hnewcs (by rw [List.length_set]; exact hC0)]
    rw [List.map_set]
    exact hsetEq (inorder c1)
  have hupsEq : inorder (node.mk false m it0 (cs0.set p (some c1))) =
      upsert x (inorder (node.mk false m it0 cs0)) := by
    rw [hnewio, hcio, horig]
    exact (upsert_append_mid hA hS).symm
  have hmemNew : ∀ c : node κ, some c ∈ (cs0.set p (some c1)).take (m+1) →
      c = c1 ∨ some c ∈ cs0.take (m+1) := by
    intro c hc
    have h1 : c ∈ C0.set p c1 :=
      (mem_take_of_form hnewcs (by rw [List.length_set]; exact hC0)).mp hc
    rcases List.mem_or_eq_of_mem_set h1 with h2 | h2
    · exact Or.inr ((mem_take_of_form hcs0 hC0).mpr h2)
    · exact Or.inl h2
  refine ⟨c1, ?_, ?_, ?_, ?_, ?_, hupsEq⟩
  · rw [hlookEq]
    exact hceq
  · refine WFN.mk false m it0 (cs0.set p (some c1)) hit0len hm ⟨L0, restI0, hit0, hL0⟩
      (by intro h; cases h) (fun _ => by rw [List.length_set]; exact hcs0len)
      (fun _ => ⟨C0.set p c1, restC0, hnewcs, by rw [List.length_set]; exact hC0⟩) ?_
    intro c hc
    rcases hmemNew c hc with h2 | h2
    · rw [h2]; exact hcwf
    · exact hwfmem c h2
  · apply Bal.internal _ _ _ h'
    intro c hc
    rcases hmemNew c hc with h2 | h2
    · rw [h2]; exact hcbal
    · exact hbalmem c h2
  · refine MinOcc.mk _ _ _ _ ?_ ?_
    · intro c hc
      rcases hmemNew c hc with h2 | h2
      · rw [h2]
        have := hlowmem c0 hc0mem
        omega
      · exact hlowmem c h2
    · intro c hc
      rcases hmemNew c hc with h2 | h2
      · rw [h2]; exact hcmo
      · exact hmomem c h2
  · rw [hupsEq]
    exact upsert_pairwise hasc

end node

theorem length_insertIdx_of_le {α : Type} {l : List α} {k : Nat}
    (hk : k ≤ l.length) (a : α) : (l.insertIdx k a).length = l.length + 1 := by
  rw [insertIdx_eq_take_cons_drop l k hk a]
  simp
  omega

theorem mem_insertIdx_of_le {α : Type} {l : List α} {k : Nat}
    (hk : k ≤ l.length) {a b : α} (h : b ∈ l.insertIdx k a) : b = a ∨ b ∈ l := by
  rw [insertIdx_eq_take_cons_drop l k hk a] at h
  rcases List.mem_append.mp h with h1 | h1
  · exact Or.inr (List.mem_of_mem_take h1)
  · rcases List.mem_cons.mp h1 with h2 | h2
    · exact Or.inl h2
    · exact Or.inr (List.mem_of_mem_drop h2)

namespace node

variable {κ : Type} [LinearOrder κ]

theorem WFN_n_le {t : Nat} {c : node κ} (h : WFN t c) : c.n ≤ 2*t - 1 := by
  cases h with
  | mk lf nn it cs hItLen hnn hIt hCsLeaf hCsLen hCs hRec => simpa using hnn

theorem insert_leaf_case {t M : Nat} {x : Item κ} {it : List (Option (Item κ))}
    {cs : List (Option (node κ))} {L : List (Item κ)} {restI : List (Option (Item κ))}
    (ht : 2 ≤ t) (hit : it = L.map some ++ restI) (hL : L.length = M)
    (hItLen : it.length = 2*t - 1) (hcsnil : cs = []) (hM : M < 2*t - 1)
    (hasc : ItemsAsc (inorder (node.mk true M it cs))) :
    ∃ nd' : node κ,
      insert t (node.mk true M it cs) x =
        .ok (lookupK x (inorder (node.mk true M it cs)), nd') ∧
      WFN t nd' ∧ Bal nd' 1 ∧ MinOcc t nd' ∧ ItemsAsc (inorder nd') ∧
      inorder nd' = upsert x (inorder (node.mk true M it cs)) ∧
      M ≤ nd'.n ∧ nd'.n ≤ M + 1 ∧ nd'.isLeaf = true := by
  have hio : inorder (node.mk true M it cs) = L := inorder_form_leaf hit hL
  have hsorted : ItemsAsc L := by rw [← hio]; exact hasc
  obtain ⟨rest', heq, hlen'⟩ :=
    @insertLeaf_spec κ _ t M it cs L restI x hit hL hItLen hM hsorted
  have hupslen := upsert_length (x := x) hsorted
  have hL'len : (upsert x L).length = if lookupK x L = none then M + 1 else M := by
    cases hcase : lookupK x L with
    | none => rw [if_pos rfl, ← hL]; exact hupslen.1 hcase
    | some y => rw [if_neg (by simp), ← hL]; exact hupslen.2 y hcase
  refine ⟨node.mk true (if lookupK x L = none then M + 1 else M)
    ((upsert x L).map some ++ rest') cs, ?_, ?_, ?_, ?_, ?_, ?_, ?_, ?_, ?_⟩
  · rw [insert.eq_def]
    dsimp only
    rw [if_pos rfl, hio]
    exact heq
  · refine WFN.mk true _ _ cs hlen' (by split <;> omega)
      ⟨upsert x L, rest', rfl, by rw [hL'len]⟩ (fun _ => hcsnil)
      (fun hcon => by cases hcon) (fun hcon => by cases hcon) ?_
    intro c hc
    rw [hcsnil] at hc
    simp at hc
  · exact Bal.leaf _ _ _
  · refine MinOcc.mk _ _ _ _ ?_ ?_ <;>
      (intro c hc; rw [hcsnil] at hc; simp at hc)
  · rw [inorder_form_leaf rfl (by rw [hL'len])]
    exact upsert_pairwise hsorted
  · rw [inorder_form_leaf rfl (by rw [hL'len]), hio]
  · simp only [n_mk]
    split <;> omega
  · simp only [n_mk]
    split <;> omega
  · rfl

theorem insert_replace_core {t h' M p : Nat} {x xp : Item κ}
    {it : List (Option (Item κ))} {cs : List (Option (node κ))}
    {L : List (Item κ)} {restI : List (Option (Item κ))}
    {C : List (node κ)} {restC : List (Option (node κ))}
    (hit : it = L.map some ++ restI) (hL : L.length = M)
    (hcs : cs = C.map some ++ restC) (hC : C.length = M + 1)
    (hItLen : it.length = 2*t - 1) (hM : M ≤ 2*t - 1) (hcslen : cs.length = 2*t)
    (hwfmem : ∀ c : node κ, some c ∈ cs.take (M+1) → WFN t c)
    (hbalmem : ∀ c : node κ, some c ∈ cs.take (M+1) → Bal c h')
    (hlowmem : ∀ c : node κ, some c ∈ cs.take (M+1) → t - 1 ≤ c.n)
    (hmomem : ∀ c : node κ, some c ∈ cs.take (M+1) → MinOcc t c)
    (hasc : ItemsAsc (inorder (node.mk false M it cs)))
    (hp : p < L.length) (hxp : L.get? p = some xp) (hkey : xp.1 = x.1) :
    lookupK x (inorder (node.mk false M it cs)) = some xp ∧
    it.set p (some x) = (L.set p x).map some ++ restI ∧
    WFN t (node.mk false M (it.set p (some x)) cs) ∧
    Bal (node.mk false M (it.set p (some x)) cs) (h'+1) ∧
    MinOcc t (node.mk false M (it.set p (some x)) cs) ∧
    ItemsAsc (inorder (node.mk false M (it.set p (some x)) cs)) ∧
    inorder (node.mk false M (it.set p (some x)) cs) =
      upsert x (inorder (node.mk false M it cs)) := by
  have hio : inorder (node.mk false M it cs) = joinInter (C.map inorder) L :=
    inorder_form_internal hit hL hcs hC
  have hlenCX : (C.map inorder).length = L.length + 1 := by simp [hC, hL]
  have hsorted0 : ItemsAsc (joinInter (C.map inorder) L) := by rw [← hio]; exact hasc
  obtain ⟨A, B, heq1, heq2, hA, hB⟩ :=
    replace_decomp hp hlenCX hsorted0 hxp hkey
  have hset : it.set p (some x) = (L.set p x).map some ++ restI :=
    set_of_form hit hp x
  have hio2 : inorder (node.mk false M (it.set p (some x)) cs) =
      joinInter (C.map inorder) (L.set p x) := by
    rw [hset]
    exact inorder_form_internal rfl (by rw [List.length_set]; exact hL) hcs hC
  have hupsEq : inorder (node.mk false M (it.set p (some x)) cs) =
      upsert x (inorder (node.mk false M it cs)) := by
    rw [hio2, heq2, hio, heq1]
    exact (upsert_append_replace hA hkey).symm
  refine ⟨?_, hset, ?_, ?_, ?_, ?_, hupsEq⟩
  · rw [hio, heq1]
    exact lookupK_append_replace hA hkey
  · refine WFN.mk false M _ cs (by rw [List.length_set]; exact hItLen) hM
      ⟨L.set p x, restI, hset, by rw [List.length_set]; exact hL⟩
      (fun hcon => by cases hcon) (fun _ => hcslen)
      (fun _ => ⟨C, restC, hcs, hC⟩) hwfmem
  · exact Bal.internal _ _ _ h' hbalmem
  · exact MinOcc.mk _ _ _ _ hlowmem hmomem
  · rw [hupsEq]
    exact upsert_pairwise hasc

end node

namespace node

variable {κ : Type} [LinearOrder κ]

theorem split_node_facts {t h' m p : Nat}
    {it0 : List (Option (Item κ))} {cs0 : List (Option (node κ))}
    {L0 : List (Item κ)} {restI0 : List (Option (Item κ))}
    {C0 : List (node κ)} {restC0 : List (Option (node κ))}
    {c0 y1 z : node κ} {med : Item κ}
    (restI' : List (Option (Item κ))) (restC' : List (Option (node κ)))
    (hit0 : it0 = L0.map some ++ restI0) (hL0 : L0.length = m)
    (hcs0 : cs0 = C0.map some ++ restC0) (hC0 : C0.length = m + 1)
    (hpm : p ≤ m)
    (hwfmem : ∀ c : node κ, some c ∈ cs0.take (m+1) → WFN t c)
    (hbalmem : ∀ c : node κ, some c ∈ cs0.take (m+1) → Bal c h')
    (hlowmem : ∀ c : node κ, some c ∈ cs0.take (m+1) → t - 1 ≤ c.n)
    (hmomem : ∀ c : node κ, some c ∈ cs0.take (m+1) → MinOcc t c)
    (hc0p : C0.get? p = some c0)
    (hy1n : y1.n = t-1) (hzn : z.n = t-1) (hy1wf : WFN t y1) (hzwf : WFN t z)
    (hioSplit : inorder y1 ++ med :: inorder z = inorder c0)
    (hbalSplit : ∀ hb : Nat, Bal c0 hb → Bal y1 hb ∧ Bal z hb)
    (hmoSplit : MinOcc t c0 → MinOcc t y1 ∧ MinOcc t z) :
    inorder (node.mk false (m+1) ((L0.insertIdx p med).map some ++ restI')
        (((C0.set p y1).insertIdx (p+1) z).map some ++ restC')) =
      inorder (node.mk false m it0 cs0) ∧
    (∀ c : node κ, some c ∈ ((((C0.set p y1).insertIdx (p+1) z).map some ++ restC').take (m+1+1)) → WFN t c) ∧
    (∀ c : node κ, some c ∈ ((((C0.set p y1).insertIdx (p+1) z).map some ++ restC').take (m+1+1)) → Bal c h') ∧
    (∀ c : node κ, some c ∈ ((((C0.set p y1).insertIdx (p+1) z).map some ++ restC').take (m+1+1)) → t - 1 ≤ c.n) ∧
    (∀ c : node κ, some c ∈ ((((C0.set p y1).insertIdx (p+1) z).map some ++ restC').take (m+1+1)) → MinOcc t c) := by
  have hc0mem : some c0 ∈ cs0.take (m+1) :=
    (mem_take_of_form hcs0 hC0).mpr (List.get?_mem hc0p)
  have hpC : p ≤ C0.length := by omega
  have hsetlen : (C0.set p y1).length = m + 1 := by
    rw [List.length_set]; exact hC0
  have hC1len : ((C0.set p y1).insertIdx (p+1) z).length = m + 1 + 1 := by
    rw [length_insertIdx_of_le (by omega)]
    omega
  have hmemC1 : ∀ c ∈ (C0.set p y1).insertIdx (p+1) z, c = z ∨ c = y1 ∨ c ∈ C0 := by
    intro c hc
    rcases mem_insertIdx_of_le (by omega) hc with h | h
    · exact Or.inl h
    · rcases List.mem_or_eq_of_mem_set h with h2 | h2
      · exact Or.inr (Or.inr h2)
      · exact Or.inr (Or.inl h2)
  have hmemT : ∀ c : node κ,
      some c ∈ ((((C0.set p y1).insertIdx (p+1) z).map some ++ restC').take (m+1+1)) →
      c = z ∨ c = y1 ∨ some c ∈ cs0.take (m+1) := by
    intro c hc
    have h1 : c ∈ (C0.set p y1).insertIdx (p+1) z :=
      (mem_take_of_form rfl hC1len).mp hc
    rcases hmemC1 c h1 with h | h | h
    · exact Or.inl h
    · exact Or.inr (Or.inl h)
    · exact Or.inr (Or.inr ((mem_take_of_form hcs0 hC0).mpr h))
  refine ⟨?_, ?_, ?_, ?_, ?_⟩
  · rw [inorder_form_internal rfl
      (by rw [length_insertIdx_of_le (by omega)]; omega) rfl hC1len]
    rw [map_insertIdx _ _ _ (by omega), List.map_set]
    rw [joinInter_split_insert p (C0.map inorder) L0 (by omega)
      (by simp [hC0, hL0]) (inorder c0) (inorder y1) (inorder z) med
      (by rw [List.get?_map, hc0p]; rfl) hioSplit]
    rw [← inorder_form_internal hit0 hL0 hcs0 hC0]
  · intro c hc
    rcases hmemT c hc with h | h | h
    · rw [h]; exact hzwf
    · rw [h]; exact hy1wf
    · exact hwfmem c h
  · intro c hc
    rcases hmemT c hc with h | h | h
    · rw [h]; exact (hbalSplit h' (hbalmem c0 hc0mem)).2
    · rw [h]; exact (hbalSplit h' (hbalmem c0 hc0mem)).1
    · exact hbalmem c h
  · intro c hc
    rcases hmemT c hc with h | h | h
    · rw [h, hzn]
    · rw [h, hy1n]
    · exact hlowmem c h
  · intro c hc
    rcases hmemT c hc with h | h | h
    · rw [h]; exact (hmoSplit (hmomem c0 hc0mem)).2
    · rw [h]; exact (hmoSplit (hmomem c0 hc0mem)).1
    · exact hmomem c h

end node

namespace node

variable {κ : Type} [LinearOrder κ]

/-- Master specification of `node.insert` on well-formed, balanced,
minimally-occupied, sorted, non-full subtrees: it succeeds, returns the
previously stored item with the new item's key (if any), keeps every
invariant at the same height, and rewrites the in-order item sequence by a
single sorted upsert. -/
theorem insert_spec {t : Nat} (ht : 2 ≤ t) :
    ∀ (h : Nat) (nd : node κ) (x : Item κ), WFN t nd → Bal nd h → MinOcc t nd →
    ItemsAsc (inorder nd) → nd.n < 2*t - 1 →
    ∃ nd', node.insert t nd x = .ok (lookupK x (inorder nd), nd') ∧
      WFN t nd' ∧ Bal nd' h ∧ MinOcc t nd' ∧ ItemsAsc (inorder nd') ∧
      inorder nd' = upsert x (inorder nd) ∧
      nd.n ≤ nd'.n ∧ nd'.n ≤ nd.n + 1 ∧ nd'.isLeaf = nd.isLeaf := by
  intro h
  induction h with
  | zero =>
    intro nd x hwf hbal hmo hasc hnf
    cases hbal
  | succ h' ih =>
    intro nd x hwf hbal hmo hasc hnf
    obtain ⟨lf, m, it0, cs0⟩ := nd
    simp only [n_mk] at hnf
    cases hwf with
    | mk _ _ _ _ hItLen hnn hIt hCsLeaf hCsLen hCs hRec =>
    obtain ⟨L0, restI0, hit0, hL0⟩ := hIt
    cases lf with
    | true =>
      cases hbal with
      | leaf =>
        obtain ⟨nd', h1, h2, h3, h4, h5, h6, h7, h8, h9⟩ :=
          insert_leaf_case (x := x) ht hit0 hL0 hItLen (hCsLeaf rfl) hnf hasc
        exact ⟨nd', h1, h2, h3, h4, h5, h6, h7, h8, h9⟩
    | false =>
      obtain ⟨C0, restC0, hcs0, hC0⟩ := hCs rfl
      have hcs0len := hCsLen rfl
      have hm : m ≤ 2*t - 1 := hnn
      have hch : ∀ c : node κ, some c ∈ cs0.take (m+1) → Bal c h' := by
        cases hbal with
        | internal nn2 it2 cs2 h2 hch2 => exact hch2
      have hlowm : ∀ c : node κ, some c ∈ cs0.take (m+1) → t - 1 ≤ c.n := by
        cases hmo with
        | mk _ _ _ _ h1 h2 => exact h1
      have hmom : ∀ c : node κ, some c ∈ cs0.take (m+1) → MinOcc t c := by
        cases hmo with
        | mk _ _ _ _ h1 h2 => exact h2
      rcases insertLoop_from hit0 hL0 0 (Nat.zero_le _) with
        ⟨p, curr, heqL, _, hplt, hLp, hcurrkey, hlowJ⟩ |
        ⟨p, heqL, _, hpm, hlowJ, hhighP⟩
      · -- an equal item sits in this node: replace it in place
        have hlt : p < it0.length := by rw [hItLen]; omega
        obtain ⟨hlook, hset, hwf2, hbal2, hmo2, hasc2, hio2⟩ :=
          insert_replace_core (x := x) hit0 hL0 hcs0 hC0 hItLen hm hcs0len
            hRec hch hlowm hmom hasc (by omega) hLp hcurrkey
        refine ⟨node.mk false m (it0.set p (some x)) cs0, ?_, hwf2, hbal2, hmo2,
          hasc2, hio2, le_refl _, by simp only [n_mk]; omega, rfl⟩
        rw [insert.eq_def]
        dsimp only
        rw [if_neg (by simp : ¬ (false = true)), heqL]
        dsimp only
        rw [if_pos hlt, hlook]
      · -- the scan picked child slot p
        have hhigh' : ∀ y : Item κ, L0.get? p = some y → x.1 < y.1 := by
          intro y hy
          rcases Nat.lt_or_ge p m with hc | hc
          · exact hhighP hc y hy
          · have hnone : L0.get? p = none := by
              rw [List.get?_eq_none]
              omega
            rw [hnone] at hy
            cases hy
        have hlow' : ∀ j, j < p → ∀ y : Item κ, L0.get? j = some y → y.1 < x.1 :=
          fun j hj => hlowJ j (Nat.zero_le _) hj
        obtain ⟨oc, hocp⟩ : ∃ oc, C0.get? p = some oc :=
          ⟨C0.get ⟨p, by omega⟩, List.get?_eq_some.mpr ⟨by omega, rfl⟩⟩
        have hcs0get : cs0.get? p = some (some oc) := by
          rw [get?_of_form hcs0 (by omega), hocp]
          rfl
        have hocmem : some oc ∈ cs0.take (m+1) :=
          (mem_take_of_form hcs0 hC0).mpr (List.get?_mem hocp)
        by_cases hfull : oc.n = 2*t - 1
        · -- the chosen child is full: split it first
          obtain ⟨med, y1, z, restI', restC', hspliteq, hIlen1, hClen1, hy1lf, hzlf,
            hy1n, hzn, hy1wf, hzwf, hioSplit, hmedLive, hbalSplit, hmoSplit, -, -, -⟩ :=
            splitChild_spec ht hit0 hL0 hcs0 hC0 hItLen hcs0len hnf hpm hocp hfull
              (hRec oc hocmem)
          obtain ⟨hio1, hwf1mem, hbal1mem, hlow1mem, hmo1mem⟩ :=
            split_node_facts restI' restC'
              hit0 hL0 hcs0 hC0 hpm hRec hch hlowm hmom hocp hy1n hzn hy1wf hzwf
              hioSplit hbalSplit hmoSplit
          have hL1len : (L0.insertIdx p med).length = m + 1 := by
            rw [length_insertIdx_of_le (by omega)]
            omega
          have hsetlen : (C0.set p y1).length = m + 1 := by
            rw [List.length_set]
            exact hC0
          have hC1len : ((C0.set p y1).insertIdx (p+1) z).length = m + 1 + 1 := by
            rw [length_insertIdx_of_le (by omega)]
            omega
          have hasc1 : ItemsAsc (inorder (node.mk false (m+1)
              ((L0.insertIdx p med).map some ++ restI')
              (((C0.set p y1).insertIdx (p+1) z).map some ++ restC'))) := by
            rw [hio1]
            exact hasc
          have hmed : (L0.insertIdx p med).get? p = some med :=
            get?_insertIdx_self (by omega) med
          have hL1lt : ∀ j, j < p → (L0.insertIdx p med).get? j = L0.get? j :=
            fun j hj => get?_insertIdx_lt (by omega) med hj
          have hL1succ : (L0.insertIdx p med).get? (p+1) = L0.get? p :=
            get?_insertIdx_succ (by omega) med
          have hC1p : ((C0.set p y1).insertIdx (p+1) z).get? p = some y1 := by
            rw [get?_insertIdx_lt (by omega) z (Nat.lt_succ_self p)]
            exact get?_set_self (by omega) y1
          have hC1p1 : ((C0.set p y1).insertIdx (p+1) z).get? (p+1) = some z :=
            get?_insertIdx_self (by omega) z
          have hcs1p : ((((C0.set p y1).insertIdx (p+1) z).map some ++ restC')).get? p
              = some (some y1) := by
            rw [get?_of_form rfl (by omega), hC1p]
            rfl
          have hcs1p1 : ((((C0.set p y1).insertIdx (p+1) z).map some ++ restC')).get? (p+1)
              = some (some z) := by
            rw [get?_of_form rfl (by omega), hC1p1]
            rfl
          rcases lt_trichotomy x.1 med.1 with hcmp | hcmp | hcmp
          · -- new key below the promoted median: descend into the halved child y1
            obtain ⟨c1, hceq, hwf2, hbal2, hmo2, hasc2, hups2⟩ :=
              insert_descend (p := p) ht (fun nd => ih nd x) rfl hL1len rfl hC1len
                hIlen1 hClen1 (by omega) hwf1mem hbal1mem hlow1mem hmo1mem hasc1
                (by omega) hC1p (by omega)
                (by
                  intro j hj y hy
                  rw [hL1lt j hj] at hy
                  exact hlow' j hj y hy)
                (by
                  intro y hy
                  rw [hmed] at hy
                  cases hy
                  exact hcmp)
            refine ⟨node.mk false (m+1) ((L0.insertIdx p med).map some ++ restI')
              (((((C0.set p y1).insertIdx (p+1) z).map some ++ restC')).set p (some c1)),
              ?_, hwf2, hbal2, hmo2, hasc2, ?_, ?_, ?_, rfl⟩
            · rw [insert.eq_def]
              dsimp only
              rw [if_neg (by simp : ¬ (false = true)), heqL]
              dsimp only
              split
              · rename_i hx
                rw [hcs0get] at hx
                exact absurd hx (by simp)
              · rename_i hx
                rw [hcs0get] at hx
                exact absurd hx (by simp)
              · rename_i c hx
                rw [hcs0get] at hx
                injection hx with hx1
                injection hx1 with hx2
                subst hx2
                rw [if_pos hfull]
                split
                · rename_i e hx2
                  rw [hspliteq] at hx2
                  exact absurd hx2 (by simp)
                · rename_i mo nd1 hx2
                  rw [hspliteq] at hx2
                  rw [Except.ok.injEq, Prod.mk.injEq] at hx2
                  obtain ⟨hmo', hnd1'⟩ := hx2
                  subst hmo'
                  subst hnd1'
                  dsimp only
                  rw [if_pos (compareItems_eq_lessThan.mpr hcmp)]
                  split
                  · rename_i hx4
                    simp only [children_mk] at hx4
                    rw [hcs1p] at hx4
                    exact absurd hx4 (by simp)
                  · rename_i hx4
                    simp only [children_mk] at hx4
                    rw [hcs1p] at hx4
                    exact absurd hx4 (by simp)
                  · rename_i c1' hx4
                    simp only [children_mk] at hx4
                    rw [hcs1p] at hx4
                    injection hx4 with hx5
                    injection hx5 with hx6
                    subst hx6
                    rw [hceq, hio1]
                    rfl
            · rw [hups2, hio1]
            · simp only [n_mk]
              omega
            · simp only [n_mk]
              omega
          · -- new key equals the promoted median: replace it in the parent
            obtain ⟨hlook1, hset1, hwf2, hbal2, hmo2, hasc2, hups2⟩ :=
              insert_replace_core (x := x) rfl hL1len rfl hC1len
                hIlen1 (by omega) hClen1 hwf1mem hbal1mem hlow1mem hmo1mem hasc1
                (by omega) hmed hcmp.symm
            refine ⟨node.mk false (m+1)
              ((((L0.insertIdx p med).map some ++ restI')).set p (some x))
              (((C0.set p y1).insertIdx (p+1) z).map some ++ restC'),
              ?_, hwf2, hbal2, hmo2, hasc2, ?_, ?_, ?_, rfl⟩
            · rw [insert.eq_def]
              dsimp only
              rw [if_neg (by simp : ¬ (false = true)), heqL]
              dsimp only
              split
              · rename_i hx
                rw [hcs0get] at hx
                exact absurd hx (by simp)
              · rename_i hx
                rw [hcs0get] at hx
                exact absurd hx (by simp)
              · rename_i c hx
                rw [hcs0get] at hx
                injection hx with hx1
                injection hx1 with hx2
                subst hx2
                rw [if_pos hfull]
                split
                · rename_i e hx2
                  rw [hspliteq] at hx2
                  exact absurd hx2 (by simp)
                · rename_i mo nd1 hx2
                  rw [hspliteq] at hx2
                  rw [Except.ok.injEq, Prod.mk.injEq] at hx2
                  obtain ⟨hmo', hnd1'⟩ := hx2
                  subst hmo'
                  subst hnd1'
                  dsimp only
                  rw [if_neg (fun hcon => absurd (compareItems_eq_lessThan.mp hcon)
                    (by rw [hcmp]; exact lt_irrefl _))]
                  rw [if_pos (compareItems_eq_equal.mpr hcmp)]
                  rw [if_pos (show p < ((L0.insertIdx p med).map some ++ restI').length
                    by omega)]
                  rw [show lookupK x (inorder (node.mk false m it0 cs0)) = some med
                    from by rw [← hio1]; exact hlook1]
            · rw [hups2, hio1]
            · simp only [n_mk]
              omega
            · simp only [n_mk]
              omega
          · -- new key above the promoted median: descend into the new sibling z
            obtain ⟨c1, hceq, hwf2, hbal2, hmo2, hasc2, hups2⟩ :=
              insert_descend (p := p+1) ht (fun nd => ih nd x) rfl hL1len rfl hC1len
                hIlen1 hClen1 (by omega) hwf1mem hbal1mem hlow1mem hmo1mem hasc1
                (by omega) hC1p1 (by omega)
                (by
                  intro j hj y hy
                  rcases Nat.lt_or_ge j p with hjp | hjp
                  · rw [hL1lt j hjp] at hy
                    exact hlow' j hjp y hy
                  · have hjeq : j = p := by omega
                    subst hjeq
                    rw [hmed] at hy
                    cases hy
                    exact hcmp)
                (by
                  intro y hy
                  rw [hL1succ] at hy
                  exact hhigh' y hy)
            refine ⟨node.mk false (m+1) ((L0.insertIdx p med).map some ++ restI')
              (((((C0.set p y1).insertIdx (p+1) z).map some ++ restC')).set (p+1) (some c1)),
              ?_, hwf2, hbal2, hmo2, hasc2, ?_, ?_, ?_, rfl⟩
            · rw [insert.eq_def]
              dsimp only
              rw [if_neg (by simp : ¬ (false = true)), heqL]
              dsimp only
              split
              · rename_i hx
                rw [hcs0get] at hx
                exact absurd hx (by simp)
              · rename_i hx
                rw [hcs0get] at hx
                exact absurd hx (by simp)
              · rename_i c hx
                rw [hcs0get] at hx
                injection hx with hx1
                injection hx1 with hx2
                subst hx2
                rw [if_pos hfull]
                split
                · rename_i e hx2
                  rw [hspliteq] at hx2
                  exact absurd hx2 (by simp)
                · rename_i mo nd1 hx2
                  rw [hspliteq] at hx2
                  rw [Except.ok.injEq, Prod.mk.injEq] at hx2
                  obtain ⟨hmo', hnd1'⟩ := hx2
                  subst hmo'
                  subst hnd1'
                  dsimp only
                  rw [if_neg (fun hcon => absurd (compareItems_eq_lessThan.mp hcon)
                    (not_lt.mpr hcmp.le))]
                  rw [if_neg (fun hcon => absurd (compareItems_eq_equal.mp hcon)
                    (ne_of_gt hcmp))]
                  split
                  · rename_i hx4
                    simp only [children_mk] at hx4
                    rw [hcs1p1] at hx4
                    exact absurd hx4 (by simp)
                  · rename_i hx4
                    simp only [children_mk] at hx4
                    rw [hcs1p1] at hx4
                    exact absurd hx4 (by simp)
                  · rename_i c1' hx4
                    simp only [children_mk] at hx4
                    rw [hcs1p1] at hx4
                    injection hx4 with hx5
                    injection hx5 with hx6
                    subst hx6
                    rw [hceq, hio1]
                    rfl
            · rw [hups2, hio1]
            · simp only [n_mk]
              omega
            · simp only [n_mk]
              omega
        · -- the chosen child has room: plain recursive descent
          have hocnf : oc.n < 2*t - 1 :=
            lt_of_le_of_ne (WFN_n_le (hRec oc hocmem)) hfull
          obtain ⟨c1, hceq, hwf2, hbal2, hmo2, hasc2, hups2⟩ :=
            insert_descend ht (fun nd => ih nd x) hit0 hL0 hcs0 hC0 hItLen hcs0len
              hm hRec hch hlowm hmom hasc hpm hocp hocnf hlow' hhigh'
          refine ⟨node.mk false m it0 (cs0.set p (some c1)), ?_, hwf2, hbal2, hmo2,
            hasc2, hups2, le_refl _, by simp only [n_mk]; omega, rfl⟩
          rw [insert.eq_def]
          dsimp only
          rw [if_neg (by simp : ¬ (false = true)), heqL]
          dsimp only
          split
          · rename_i hx
            rw [hcs0get] at hx
            exact absurd hx (by simp)
          · rename_i hx
            rw [hcs0get] at hx
            exact absurd hx (by simp)
          · rename_i c hx
            rw [hcs0get] at hx
            injection hx with hx1
            injection hx1 with hx2
            subst hx2
            rw [if_neg hfull, hceq]
            rfl

end node

theorem lookupK_eq_of_mem {κ : Type} [LinearOrder κ] {x y : Item κ} :
    ∀ {l : List (Item κ)}, ItemsAsc l → y ∈ l → y.1 = x.1 → lookupK x l = some y := by
  intro l
  induction l with
  | nil => intro _ hy; cases hy
  | cons z zs ih =>
    intro hasc hy hkey
    unfold ItemsAsc at hasc
    rw [List.pairwise_cons] at hasc
    rcases List.mem_cons.mp hy with hy | hy
    · subst hy
      rw [lookupK_cons, if_pos hkey]
    · have hz : z.1 < x.1 := by
        rw [← hkey]
        exact hasc.1 y hy
      rw [lookupK_cons, if_neg (ne_of_lt hz)]
      exact ih hasc.2 hy hkey

namespace node

variable {κ : Type}

/-- Strict descendant: reachable from the root of a subtree through at least
one live child edge (child slots `0..n`). -/
inductive Desc : node κ → node κ → Prop where
  | child {p c : node κ} : some c ∈ p.children.take (p.n + 1) → Desc p c
  | trans {a b c : node κ} : Desc a b → Desc b c → Desc a c

theorem Desc_WFN {t : Nat} {r c : node κ} (hd : Desc r c) : WFN t r → WFN t c := by
  induction hd with
  | child hmem =>
    intro hwf
    cases hwf with
    | mk lf nn it cs h1 h2 h3 h4 h5 h6 hRec =>
      exact hRec _ (by simpa using hmem)
  | trans h1 h2 ih1 ih2 =>
    intro hwf
    exact ih2 (ih1 hwf)

theorem Desc_MinOcc {t : Nat} {r c : node κ} (hd : Desc r c) :
    MinOcc t r → t - 1 ≤ c.n ∧ MinOcc t c := by
  induction hd with
  | child hmem =>
    intro hmo
    cases hmo with
    | mk lf nn it cs hlow hrec =>
      exact ⟨hlow _ (by simpa using hmem), hrec _ (by simpa using hmem)⟩
  | trans h1 h2 ih1 ih2 =>
    intro hmo
    exact ih2 (ih1 hmo).2

mutual

/-- The depths of all leaves of a subtree (the subtree root at depth 1),
collected left to right over the live child slots. -/
def leafDepths : node κ → List Nat
  | .mk lf nn _ cs => if lf then [1] else (leafDepthsL cs (nn+1)).map (fun d => d + 1)

/-- Leaf depths collected over the first `k` slots of a child-slot list,
skipping nil slots. -/
def leafDepthsL : List (Option (node κ)) → Nat → List Nat
  | _, 0 => []
  | [], _ => []
  | none :: rest, k+1 => leafDepthsL rest k
  | some c :: rest, k+1 => leafDepths c ++ leafDepthsL rest k

end

theorem leafDepthsL_mem {d : Nat} :
    ∀ (cs : List (Option (node κ))) (k : Nat), d ∈ leafDepthsL cs k →
    ∃ c : node κ, some c ∈ cs.take k ∧ d ∈ leafDepths c := by
  intro cs
  induction cs with
  | nil =>
    intro k h
    cases k with
    | zero => simp [leafDepthsL] at h
    | succ k => simp [leafDepthsL] at h
  | cons a rest ih =>
    intro k h
    cases k with
    | zero => simp [leafDepthsL] at h
    | succ k =>
      cases a with
      | none =>
        rw [leafDepthsL] at h
        obtain ⟨c, hc1, hc2⟩ := ih k h
        exact ⟨c, by rw [List.take_succ_cons]; exact List.mem_cons_of_mem _ hc1, hc2⟩
      | some c0 =>
        rw [leafDepthsL] at h
        rcases List.mem_append.mp h with h | h
        · exact ⟨c0, by rw [List.take_succ_cons]; exact List.mem_cons_self _ _, h⟩
        · obtain ⟨c, hc1, hc2⟩ := ih k h
          exact ⟨c, by rw [List.take_succ_cons]; exact List.mem_cons_of_mem _ hc1, hc2⟩

theorem Bal_leafDepths {h : Nat} {nd : node κ} (hb : Bal nd h) :
    ∀ d ∈ leafDepths nd, d = h := by
  induction hb with
  | leaf nn it cs =>
    intro d hd
    rw [leafDepths, if_pos rfl] at hd
    simpa using hd
  | internal nn it cs h hch ih =>
    intro d hd
    rw [leafDepths, if_neg (by simp)] at hd
    rcases List.mem_map.mp hd with ⟨d', hd', hde⟩
    obtain ⟨c, hc1, hc2⟩ := leafDepthsL_mem cs (nn+1) hd'
    have := ih c (by simpa using hc1) d' hc2
    omega

theorem Bal_unique {t : Nat} [LinearOrder κ] {nd : node κ} {h1 : Nat} (hb1 : Bal nd h1) :
    ∀ h2, WFN t nd → Bal nd h2 → h1 = h2 := by
  induction hb1 with
  | leaf nn it cs =>
    intro h2 hwf hb2
    cases hb2
    rfl
  | internal nn it cs h hch ih =>
    intro h2 hwf hb2
    cases hwf with
    | mk _ _ _ _ hItLen hnn hIt hCsLeaf hCsLen hCs hRec =>
    obtain ⟨C, restC, hcs, hC⟩ := hCs rfl
    obtain ⟨c, C', hcc⟩ : ∃ (c : node κ) (C' : List (node κ)), C = c :: C' := by
      cases C with
      | nil => simp at hC
      | cons c C' => exact ⟨c, C', rfl⟩
    have hcmem : some c ∈ cs.take (nn+1) :=
      (mem_take_of_form hcs hC).mpr (by rw [hcc]; exact List.mem_cons_self _ _)
    cases hb2 with
    | internal _ _ _ h2' hch2 =>
      have := ih c hcmem h2' (hRec c hcmem) (hch2 c hcmem)
      omega

end node

/-- The global invariant of a tree as maintained by this package: a valid
minimum degree, well-formed slot layout everywhere, all leaves at one common
depth, minimum occupancy of every strict descendant of the root, strictly
ascending stored keys, and `len` counting the stored items. -/
def TreeInv {κ : Type} [LinearOrder κ] (b : btree κ) : Prop :=
  2 ≤ b.t ∧ node.WFN b.t b.root ∧ (∃ h : Nat, node.Bal b.root h) ∧
  node.MinOcc b.t b.root ∧ ItemsAsc (node.inorder b.root) ∧
  b.len = (node.inorder b.root).length

/-- `btree.insert` on an invariant-satisfying tree: it succeeds, returns the
previously stored equal-key item, preserves the invariant, performs a sorted
upsert on the stored sequence, adjusts `len` exactly on fresh keys, grows the
height by one exactly when the root was full (by splitting the old root under
a fresh internal root), and keeps the height otherwise. -/
theorem btree.insert_ok {κ : Type} [LinearOrder κ] {b : btree κ} (hinv : TreeInv b)
    {h : Nat} (hbal : node.Bal b.root h) (x : Item κ) :
    ∃ b' : btree κ,
      btree.insert b x = .ok (lookupK x (node.inorder b.root), b') ∧
      TreeInv b' ∧ b'.t = b.t ∧
      node.inorder b'.root = upsert x (node.inorder b.root) ∧
      b'.len = (if lookupK x (node.inorder b.root) = none then b.len + 1 else b.len) ∧
      node.Bal b'.root (if b.root.n = 2*b.t - 1 then h + 1 else h) ∧
      (b.root.n = 2*b.t - 1 →
        ∃ (med : Item κ) (y1 z r2 : node κ),
          node.splitChild b.t (node.setChild (node.newNode b.t false) 0 b.root) 0 =
            .ok (some med, r2) ∧
          r2.isLeaf = false ∧ r2.n = 1 ∧ r2.liveChildren = [y1, z] ∧
          node.inorder r2 = node.inorder b.root ∧
          node.insert b.t r2 x = .ok (lookupK x (node.inorder b.root), b'.root)) ∧
      (¬ b.root.n = 2*b.t - 1 →
        node.insert b.t b.root x = .ok (lookupK x (node.inorder b.root), b'.root)) := by
  obtain ⟨ht, hwf, -, hmo, hasc, hlenInv⟩ := hinv
  by_cases hfull : b.root.n = 2*b.t - 1
  · -- the root is full: grow first
    have hnew : node.newNode (κ := κ) b.t false =
        node.mk false 0 (List.replicate (2*b.t - 1) none)
          (List.replicate (2*b.t) none) := by
      simp [node.newNode]
    have hcsform : (List.replicate (2*b.t) (none : Option (node κ))).set 0
        (some b.root) = [b.root].map some ++ List.replicate (2*b.t - 1) none := by
      conv_lhs => rw [show 2*b.t = 2*b.t - 1 + 1 from by omega, List.replicate_succ]
      rfl
    have hitform : (List.replicate (2*b.t - 1) (none : Option (Item κ))) =
        List.map some ([] : List (Item κ)) ++ List.replicate (2*b.t - 1) none := rfl
    have hL00 : List.length ([] : List (Item κ)) = 0 := rfl
    have hC00 : [b.root].length = 0 + 1 := rfl
    have hget0 : [b.root].get? 0 = some b.root := rfl
    obtain ⟨med, y1, z, restI', restC', hspliteq, hIlen1, hClen1, hy1lf, hzlf,
      hy1n, hzn, hy1wf, hzwf, hioSplit, hmedLive, hbalSplit, hmoSplit, -, -, -⟩ :=
      node.splitChild_spec ht hitform hL00 hcsform hC00 (by simp) (by simp)
        (by omega) (by omega) hget0 hfull hwf
    have hwfmem0 : ∀ c : node κ, some c ∈ ((List.replicate (2*b.t)
        (none : Option (node κ))).set 0 (some b.root)).take (0+1) → node.WFN b.t c := by
      intro c hc
      have hcm := (node.mem_take_of_form hcsform rfl).mp hc
      rw [List.mem_singleton] at hcm
      rw [hcm]
      exact hwf
    have hbalmem0 : ∀ c : node κ, some c ∈ ((List.replicate (2*b.t)
        (none : Option (node κ))).set 0 (some b.root)).take (0+1) → node.Bal c h := by
      intro c hc
      have hcm := (node.mem_take_of_form hcsform rfl).mp hc
      rw [List.mem_singleton] at hcm
      rw [hcm]
      exact hbal
    have hlowmem0 : ∀ c : node κ, some c ∈ ((List.replicate (2*b.t)
        (none : Option (node κ))).set 0 (some b.root)).take (0+1) →
        b.t - 1 ≤ c.n := by
      intro c hc
      have hcm := (node.mem_take_of_form hcsform rfl).mp hc
      rw [List.mem_singleton] at hcm
      rw [hcm]
      omega
    have hmomem0 : ∀ c : node κ, some c ∈ ((List.replicate (2*b.t)
        (none : Option (node κ))).set 0 (some b.root)).take (0+1) →
        node.MinOcc b.t c := by
      intro c hc
      have hcm := (node.mem_take_of_form hcsform rfl).mp hc
      rw [List.mem_singleton] at hcm
      rw [hcm]
      exact hmo
    obtain ⟨hio1, hwf1mem, hbal1mem, hlow1mem, hmo1mem⟩ :=
      node.split_node_facts restI' restC' hitform hL00 hcsform hC00 (by omega)
        hwfmem0 hbalmem0 hlowmem0 hmomem0 hget0 hy1n hzn hy1wf hzwf
        hioSplit hbalSplit hmoSplit
    have hio0 : node.inorder (node.mk false 0
        (List.replicate (2*b.t - 1) (none : Option (Item κ)))
        ((List.replicate (2*b.t) (none : Option (node κ))).set 0 (some b.root))) =
        node.inorder b.root := by
      rw [node.inorder_form_internal hitform hL00 hcsform hC00]
      rfl
    have hior2 : node.inorder (node.mk false (0+1)
        ((([] : List (Item κ)).insertIdx 0 med).map some ++ restI')
        ((([b.root].set 0 y1).insertIdx (0+1) z).map some ++ restC')) =
        node.inorder b.root := hio1.trans hio0
    have hwfr2 : node.WFN b.t (node.mk false (0+1)
        ((([] : List (Item κ)).insertIdx 0 med).map some ++ restI')
        ((([b.root].set 0 y1).insertIdx (0+1) z).map some ++ restC')) := by
      refine node.WFN.mk false (0+1) _ _ hIlen1 (by omega)
        ⟨([] : List (Item κ)).insertIdx 0 med, restI', rfl, ?_⟩
        (by intro hcon; cases hcon) (fun _ => hClen1)
        (fun _ => ⟨([b.root].set 0 y1).insertIdx (0+1) z, restC', rfl, ?_⟩)
        hwf1mem
      · rw [length_insertIdx_of_le (by simp)]
        rfl
      · rw [length_insertIdx_of_le (by simp)]
        simp
    have hbalr2 : node.Bal (node.mk false (0+1)
        ((([] : List (Item κ)).insertIdx 0 med).map some ++ restI')
        ((([b.root].set 0 y1).insertIdx (0+1) z).map some ++ restC')) (h+1) :=
      node.Bal.internal _ _ _ h hbal1mem
    have hmor2 : node.MinOcc b.t (node.mk false (0+1)
        ((([] : List (Item κ)).insertIdx 0 med).map some ++ restI')
        ((([b.root].set 0 y1).insertIdx (0+1) z).map some ++ restC')) :=
      node.MinOcc.mk _ _ _ _ hlow1mem hmo1mem
    have hascr2 : ItemsAsc (node.inorder (node.mk false (0+1)
        ((([] : List (Item κ)).insertIdx 0 med).map some ++ restI')
        ((([b.root].set 0 y1).insertIdx (0+1) z).map some ++ restC'))) := by
      rw [hior2]
      exact hasc
    obtain ⟨root2, hinseq, hwf', hbal', hmo', hasc', hio', hn1, hn2, hlf'⟩ :=
      node.insert_spec ht (h+1) (node.mk false (0+1)
        ((([] : List (Item κ)).insertIdx 0 med).map some ++ restI')
        ((([b.root].set 0 y1).insertIdx (0+1) z).map some ++ restC')) x
        hwfr2 hbalr2 hmor2 hascr2 (by simp only [node.n_mk]; omega)
    have hlookr2 : lookupK x (node.inorder (node.mk false (0+1)
        ((([] : List (Item κ)).insertIdx 0 med).map some ++ restI')
        ((([b.root].set 0 y1).insertIdx (0+1) z).map some ++ restC'))) =
        lookupK x (node.inorder b.root) := by
      rw [hior2]
    rw [hlookr2] at hinseq
    have hio'' : node.inorder root2 = upsert x (node.inorder b.root) := by
      rw [hio', hior2]
    have hlenb' : (if lookupK x (node.inorder b.root) = none then b.len + 1
        else b.len) = (node.inorder root2).length := by
      rw [hio'']
      cases hcase : lookupK x (node.inorder b.root) with
      | none =>
        rw [if_pos rfl, hlenInv]
        exact ((upsert_length hasc).1 hcase).symm
      | some y =>
        rw [if_neg (by simp), hlenInv]
        exact ((upsert_length hasc).2 y hcase).symm
    refine ⟨⟨root2, b.t, if lookupK x (node.inorder b.root) = none then b.len + 1
      else b.len⟩, ?_, ⟨ht, hwf', ⟨h+1, hbal'⟩, hmo', hasc', hlenb'⟩, rfl, hio'',
      rfl, ?_, ?_, fun hcon => absurd hfull hcon⟩
    · simp only [btree.insert]
      rw [if_pos hfull, hnew]
      dsimp only
      rw [if_pos (show 0 < (List.replicate (2*b.t) (none : Option (node κ))).length
        by rw [List.length_replicate]; omega)]
      rw [hspliteq]
      dsimp only
      rw [hinseq]
    · rw [if_pos hfull]
      exact hbal'
    · intro _
      have hgrow : node.setChild (node.newNode (κ := κ) b.t false) 0 b.root =
          node.mk false 0 (List.replicate (2*b.t - 1) none)
            ((List.replicate (2*b.t) none).set 0 (some b.root)) := by
        rw [hnew]
        rfl
      have hlc : (node.mk false (0+1)
          ((([] : List (Item κ)).insertIdx 0 med).map some ++ restI')
          ((([b.root].set 0 y1).insertIdx (0+1) z).map some ++ restC')).liveChildren =
          ([b.root].set 0 y1).insertIdx (0+1) z := by
        refine node.liveChildren_eq rfl ?_
        rw [length_insertIdx_of_le (by simp)]
        simp
      have hlc2 : ([b.root].set 0 y1).insertIdx (0+1) z = [y1, z] := by
        rw [List.set_cons_zero]
        rw [insertIdx_eq_take_cons_drop _ _ (by simp)]
        simp
      refine ⟨med, y1, z, node.mk false (0+1)
        ((([] : List (Item κ)).insertIdx 0 med).map some ++ restI')
        ((([b.root].set 0 y1).insertIdx (0+1) z).map some ++ restC'),
        ?_, rfl, rfl, ?_, hior2, hinseq⟩
      · rw [hgrow]
        exact hspliteq
      · rw [hlc, hlc2]
  · -- the root has room: no growth
    have hnf : b.root.n < 2*b.t - 1 := lt_of_le_of_ne (node.WFN_n_le hwf) hfull
    obtain ⟨root2, hinseq, hwf', hbal', hmo', hasc', hio', hn1, hn2, hlf'⟩ :=
      node.insert_spec ht h b.root x hwf hbal hmo hasc hnf
    have hlenb' : (if lookupK x (node.inorder b.root) = none then b.len + 1
        else b.len) = (node.inorder root2).length := by
      rw [hio']
      cases hcase : lookupK x (node.inorder b.root) with
      | none =>
        rw [if_pos rfl, hlenInv]
        exact ((upsert_length hasc).1 hcase).symm
      | some y =>
        rw [if_neg (by simp), hlenInv]
        exact ((upsert_length hasc).2 y hcase).symm
    refine ⟨⟨root2, b.t, if lookupK x (node.inorder b.root) = none then b.len + 1
      else b.len⟩, ?_, ⟨ht, hwf', ⟨h, hbal'⟩, hmo', hasc', hlenb'⟩, rfl, hio',
      rfl, ?_, fun hcon => absurd hcon hfull, fun _ => hinseq⟩
    · simp only [btree.insert]
      rw [if_neg hfull]
      dsimp only
      rw [hinseq]
    · rw [if_neg hfull]
      exact hbal'

theorem self_mem_upsert {κ : Type} [LinearOrder κ] {x : Item κ} :
    ∀ {l : List (Item κ)}, x ∈ upsert x l := by
  intro l
  induction l with
  | nil => exact List.mem_singleton.mpr rfl
  | cons y ys ih =>
    rw [upsert_cons]
    split
    · exact List.mem_cons_self _ _
    · split
      · exact List.mem_cons_self _ _
      · exact List.mem_cons_of_mem _ ih

theorem TreeInv_newBTree {κ : Type} [LinearOrder κ] {t : Nat} (ht : 2 ≤ t) :
    newBTree (κ := κ) t = .ok ⟨node.newNode t true, t, 0⟩ ∧
    TreeInv (⟨node.newNode t true, t, 0⟩ : btree κ) := by
  have hnn : node.newNode (κ := κ) t true =
      node.mk true 0 (List.replicate (2*t - 1) none) [] := by
    simp [node.newNode]
  have hitform : (List.replicate (2*t - 1) (none : Option (Item κ))) =
      List.map some ([] : List (Item κ)) ++ List.replicate (2*t - 1) none := rfl
  have hio : node.inorder (node.mk true 0
      (List.replicate (2*t - 1) (none : Option (Item κ)))
      ([] : List (Option (node κ)))) = ([] : List (Item κ)) :=
    node.inorder_form_leaf hitform rfl
  refine ⟨?_, ht, ?_, ⟨1, ?_⟩, ?_, ?_, ?_⟩
  · rw [newBTree, if_neg (by omega)]
  · rw [hnn]
    refine node.WFN.mk true 0 _ _ (by simp) (by omega)
      ⟨[], List.replicate (2*t - 1) none, hitform, rfl⟩
      (fun _ => rfl) (fun hcon => by cases hcon) (fun hcon => by cases hcon) ?_
    intro c hc
    simp at hc
  · rw [hnn]
    exact node.Bal.leaf _ _ _
  · rw [hnn]
    refine node.MinOcc.mk _ _ _ _ ?_ ?_ <;> (intro c hc; simp at hc)
  · dsimp only
    rw [hnn, hio]
    exact List.Pairwise.nil
  · dsimp only
    rw [hnn, hio]
    rfl

theorem TreeInv_insertList {κ : Type} [LinearOrder κ] :
    ∀ (xs : List (Item κ)) (b : btree κ), TreeInv b →
    ∃ b' : btree κ, insertList b xs = .ok b' ∧ TreeInv b' ∧ b'.t = b.t := by
  intro xs
  induction xs with
  | nil =>
    intro b hinv
    exact ⟨b, rfl, hinv, rfl⟩
  | cons x rest ih =>
    intro b hinv
    obtain ⟨h, hbal⟩ := hinv.2.2.1
    obtain ⟨b1, heq, hinv1, ht1, -, -, -, -, -⟩ := btree.insert_ok hinv hbal x
    obtain ⟨b', heq', hinv', ht'⟩ := ih b1 hinv1
    refine ⟨b', ?_, hinv', by rw [ht', ht1]⟩
    rw [insertList, heq]
    exact heq'

/-- C2: after any sequence of `Tree.insert` calls on a tree created by
`newTree(t)` with `t ≥ 2`, the in-order traversal of stored items is strictly
ascending and duplicate-free, every strict descendant of the root has item
count between `t-1` and `2t-1` while the root satisfies the upper bound
`2t-1`, and every leaf lies at the same depth from the root. -/
theorem c2_global_invariants_after_inserts {κ : Type} [LinearOrder κ]
    {t : Nat} (ht : 2 ≤ t) (xs : List (Item κ)) {b0 b : btree κ}
    (h0 : newBTree t = .ok b0) (hins : insertList b0 xs = .ok b) :
    ItemsAsc (node.inorder b.root) ∧
    ((node.inorder b.root).map Prod.fst).Nodup ∧
    b.root.n ≤ 2*t - 1 ∧
    (∀ c : node κ, node.Desc b.root c → t - 1 ≤ c.n ∧ c.n ≤ 2*t - 1) ∧
    (∃ hh : Nat, node.Bal b.root hh ∧ ∀ d ∈ node.leafDepths b.root, d = hh) := by
  obtain ⟨hnew, hinv0⟩ := TreeInv_newBTree (κ := κ) ht
  rw [hnew, Except.ok.injEq] at h0
  subst h0
  obtain ⟨b', heq', hinv', ht'⟩ := TreeInv_insertList xs _ hinv0
  rw [hins, Except.ok.injEq] at heq'
  subst heq'
  have hbt : b.t = t := ht'
  obtain ⟨-, hwf, ⟨hh, hbal⟩, hmo, hasc, -⟩ := hinv'
  rw [hbt] at hwf hmo
  refine ⟨hasc, ?_, node.WFN_n_le hwf, ?_, ⟨hh, hbal, node.Bal_leafDepths hbal⟩⟩
  · exact List.pairwise_map.mpr (List.Pairwise.imp (fun h => ne_of_lt h) hasc)
  · intro c hd
    exact ⟨(node.Desc_MinOcc hd hmo).1, node.WFN_n_le (node.Desc_WFN hd hwf)⟩

theorem c2_global_invariants_witness :
    (2 ≤ 2 ∧
     newBTree (κ := Int) 2 = .ok ⟨node.newNode 2 true, 2, 0⟩ ∧
     insertList (⟨node.newNode 2 true, 2, 0⟩ : btree Int) [((1 : Int), 0)] =
       .ok ⟨node.mk true 1 [some ((1 : Int), 0), none, none] [], 2, 1⟩) ∧
    (ItemsAsc (node.inorder (node.mk true 1 [some ((1 : Int), 0), none, none]
       ([] : List (Option (node Int))))) ∧
     ((node.inorder (node.mk true 1 [some ((1 : Int), 0), none, none]
       ([] : List (Option (node Int))))).map Prod.fst).Nodup ∧
     (node.mk true 1 [some ((1 : Int), 0), none, none]
       ([] : List (Option (node Int)))).n ≤ 2*2 - 1 ∧
     (∀ c : node Int, node.Desc (node.mk true 1 [some ((1 : Int), 0), none, none]
       ([] : List (Option (node Int)))) c → 2 - 1 ≤ c.n ∧ c.n ≤ 2*2 - 1) ∧
     (∃ hh : Nat, node.Bal (node.mk true 1 [some ((1 : Int), 0), none, none]
       ([] : List (Option (node Int)))) hh ∧
       ∀ d ∈ node.leafDepths (node.mk true 1 [some ((1 : Int), 0), none, none]
         ([] : List (Option (node Int)))), d = hh)) := by
  have h0 : newBTree (κ := Int) 2 = .ok ⟨node.newNode 2 true, 2, 0⟩ := by
    rw [newBTree, if_neg (by omega)]
  have hins : insertList (⟨node.newNode 2 true, 2, 0⟩ : btree Int) [((1 : Int), 0)] =
      .ok ⟨node.mk true 1 [some ((1 : Int), 0), none, none] [], 2, 1⟩ := by
    simp [insertList, btree.insert, node.insert, node.insertLeaf, node.insertLeafLoop,
      node.newNode, compareItems, equal, lessThan, greaterThan]
  exact ⟨⟨by omega, h0, hins⟩,
    c2_global_invariants_after_inserts (by omega) [((1 : Int), 0)] h0 hins⟩

/-- C3: on any tree reachable from `newTree(t)` by inserts, `Tree.insert(x)`
returns the previously stored equal-key item (absent when none exists) and
increments `len` exactly on fresh keys; re-inserting an equal key afterwards
returns the first payload as previous and leaves `len` unchanged. -/
theorem c3_insert_prev_and_len {κ : Type} [LinearOrder κ]
    {t : Nat} (ht : 2 ≤ t) (xs : List (Item κ)) {b0 b : btree κ}
    (h0 : newBTree t = .ok b0) (hins : insertList b0 xs = .ok b) (x : Item κ) :
    ∃ b' : btree κ,
      btree.insert b x = .ok (lookupK x (node.inorder b.root), b') ∧
      ((∀ y ∈ node.inorder b.root, y.1 ≠ x.1) →
        lookupK x (node.inorder b.root) = none ∧ b'.len = b.len + 1) ∧
      (∀ y : Item κ, y ∈ node.inorder b.root → y.1 = x.1 →
        lookupK x (node.inorder b.root) = some y ∧ b'.len = b.len) ∧
      (∀ x2 : Item κ, x2.1 = x.1 → (∀ y ∈ node.inorder b.root, y.1 ≠ x.1) →
        ∃ b'' : btree κ, btree.insert b' x2 = .ok (some x, b'') ∧
          b''.len = b'.len) := by
  obtain ⟨hnew, hinv0⟩ := TreeInv_newBTree (κ := κ) ht
  rw [hnew, Except.ok.injEq] at h0
  subst h0
  obtain ⟨b1, heq', hinv, -⟩ := TreeInv_insertList xs _ hinv0
  rw [hins, Except.ok.injEq] at heq'
  subst heq'
  obtain ⟨h, hbal⟩ := hinv.2.2.1
  have hasc : ItemsAsc (node.inorder b.root) := hinv.2.2.2.2.1
  obtain ⟨b', heq, hinv', ht', hio', hlen', -, -, -⟩ := btree.insert_ok hinv hbal x
  refine ⟨b', heq, ?_, ?_, ?_⟩
  · intro hnone
    have hcase : lookupK x (node.inorder b.root) = none :=
      lookupK_eq_none_iff.mpr hnone
    refine ⟨hcase, ?_⟩
    rw [hlen', if_pos hcase]
  · intro y hy hkey
    have hcase : lookupK x (node.inorder b.root) = some y :=
      lookupK_eq_of_mem hasc hy hkey
    refine ⟨hcase, ?_⟩
    rw [hlen', if_neg (by rw [hcase]; simp)]
  · intro x2 hkey2 hnone
    obtain ⟨h', hbal'⟩ := hinv'.2.2.1
    obtain ⟨b'', heq2, -, -, -, hlen2, -, -, -⟩ := btree.insert_ok hinv' hbal' x2
    have hlook2 : lookupK x2 (node.inorder b'.root) = some x := by
      rw [hio']
      exact lookupK_eq_of_mem (upsert_pairwise hasc) self_mem_upsert hkey2.symm
    rw [hlook2] at heq2
    refine ⟨b'', heq2, ?_⟩
    rw [hlen2, hlook2, if_neg (by simp)]

theorem c3_insert_prev_and_len_witness :
    (2 ≤ 2 ∧
     newBTree (κ := Int) 2 = .ok ⟨node.newNode 2 true, 2, 0⟩ ∧
     insertList (⟨node.newNode 2 true, 2, 0⟩ : btree Int) [((1 : Int), 0)] =
       .ok ⟨node.mk true 1 [some ((1 : Int), 0), none, none] [], 2, 1⟩) ∧
    (∃ b' : btree Int,
      btree.insert (⟨node.mk true 1 [some ((1 : Int), 0), none, none] [], 2, 1⟩ :
          btree Int) ((2 : Int), 7) =
        .ok (lookupK ((2 : Int), 7) (node.inorder (node.mk true 1
          [some ((1 : Int), 0), none, none] ([] : List (Option (node Int))))), b') ∧
      ((∀ y ∈ node.inorder (node.mk true 1 [some ((1 : Int), 0), none, none]
          ([] : List (Option (node Int)))), y.1 ≠ (2 : Int)) →
        lookupK ((2 : Int), 7) (node.inorder (node.mk true 1
          [some ((1 : Int), 0), none, none] ([] : List (Option (node Int))))) = none ∧
        b'.len = (⟨node.mk true 1 [some ((1 : Int), 0), none, none] [], 2, 1⟩ :
          btree Int).len + 1) ∧
      (∀ y : Item Int, y ∈ node.inorder (node.mk true 1
          [some ((1 : Int), 0), none, none] ([] : List (Option (node Int)))) →
          y.1 = (2 : Int) →
        lookupK ((2 : Int), 7) (node.inorder (node.mk true 1
          [some ((1 : Int), 0), none, none] ([] : List (Option (node Int))))) =
          some y ∧
        b'.len = (⟨node.mk true 1 [some ((1 : Int), 0), none, none] [], 2, 1⟩ :
          btree Int).len) ∧
      (∀ x2 : Item Int, x2.1 = (2 : Int) →
        (∀ y ∈ node.inorder (node.mk true 1 [some ((1 : Int), 0), none, none]
          ([] : List (Option (node Int)))), y.1 ≠ (2 : Int)) →
        ∃ b'' : btree Int, btree.insert b' x2 = .ok (some ((2 : Int), 7), b'') ∧
          b''.len = b'.len)) := by
  have h0 : newBTree (κ := Int) 2 = .ok ⟨node.newNode 2 true, 2, 0⟩ := by
    rw [newBTree, if_neg (by omega)]
  have hins : insertList (⟨node.newNode 2 true, 2, 0⟩ : btree Int) [((1 : Int), 0)] =
      .ok ⟨node.mk true 1 [some ((1 : Int), 0), none, none] [], 2, 1⟩ := by
    simp [insertList, btree.insert, node.insert, node.insertLeaf, node.insertLeafLoop,
      node.newNode, compareItems, equal, lessThan, greaterThan]
  exact ⟨⟨by omega, h0, hins⟩,
    c3_insert_prev_and_len (by omega) [((1 : Int), 0)] h0 hins ((2 : Int), 7)⟩

/-- C5: `splitChild(t, i)` on a parent whose `i`-th child `y` is full halves
`y` (first `t-1` items, and first `t` children if internal, count `t-1`),
creates one sibling `z` (items `t..2t-2`, children `t..2t-1` if internal,
count `t-1`), removes `y`'s middle item (index `t-1`) as the median, inserts
the median into the parent's items at position `i` (shifting the later
items/children one slot), inserts `z` right after `y` at child index `i+1`,
increments the parent's count, and returns the median. -/
theorem c5_splitChild_halves_and_promotes_median {κ : Type} [LinearOrder κ]
    {t i : Nat} {nd y : node κ} (ht : 2 ≤ t)
    (hwf : node.WFN t nd) (hleaf : nd.isLeaf = false) (hnotfull : nd.n < 2*t - 1)
    (hi : i ≤ nd.n) (hy : nd.liveChildren.get? i = some y)
    (hyfull : y.n = 2*t - 1) :
    ∃ (med : Item κ) (y1 z nd1 : node κ),
      node.splitChild t nd i = .ok (some med, nd1) ∧
      y.liveItems.get? (t-1) = some med ∧
      y1.liveItems = y.liveItems.take (t-1) ∧ y1.n = t - 1 ∧
      y1.isLeaf = y.isLeaf ∧
      z.liveItems = y.liveItems.drop t ∧ z.n = t - 1 ∧ z.isLeaf = y.isLeaf ∧
      (y.isLeaf = false → y1.liveChildren = y.liveChildren.take t ∧
        z.liveChildren = y.liveChildren.drop t) ∧
      nd1.n = nd.n + 1 ∧ nd1.isLeaf = nd.isLeaf ∧
      nd1.liveItems = nd.liveItems.insertIdx i med ∧
      nd1.liveChildren = (nd.liveChildren.set i y1).insertIdx (i+1) z := by
  obtain ⟨lf, nn, it, cs⟩ := nd
  rw [node.isLeaf_mk] at hleaf
  subst hleaf
  simp only [node.n_mk] at hnotfull hi
  cases hwf with
  | mk _ _ _ _ hItLen hnn hIt hCsLeaf hCsLen hCs hRec =>
  obtain ⟨L, restI, hit, hL⟩ := hIt
  obtain ⟨C, restC, hcs, hC⟩ := hCs rfl
  have hlc : (node.mk false nn it cs).liveChildren = C := node.liveChildren_eq hcs hC
  rw [hlc] at hy
  have hymem : some y ∈ cs.take (nn+1) :=
    (node.mem_take_of_form hcs hC).mpr (List.get?_mem hy)
  have hywf := hRec y hymem
  obtain ⟨med, y1, z, restI', restC', hspliteq, hIlen1, hClen1, hy1lf, hzlf,
    hy1n, hzn, hy1wf, hzwf, -, hmedLive, -, -, hy1keep, hzkeep, hchkeep⟩ :=
    node.splitChild_spec ht hit hL hcs hC hItLen (hCsLen rfl) hnotfull hi hy
      hyfull hywf
  have hli : (node.mk false nn it cs).liveItems = L := node.liveItems_eq hit hL
  refine ⟨med, y1, z, _, hspliteq, hmedLive, hy1keep, hy1n, hy1lf, hzkeep, hzn,
    hzlf, hchkeep, rfl, rfl, ?_, ?_⟩
  · rw [hli]
    exact node.liveItems_eq rfl
      (by rw [length_insertIdx_of_le (by omega)]; omega)
  · rw [hlc]
    refine node.liveChildren_eq rfl ?_
    rw [length_insertIdx_of_le (by rw [List.length_set]; omega), List.length_set]
    omega

def c5FullChild : node Int :=
  .mk true 3 [some (1, 0), some (2, 0), some (3, 0)] []

def c5Parent : node Int :=
  .mk false 0 [none, none, none] [some c5FullChild, none, none, none]

theorem c5_splitChild_witness :
    (2 ≤ 2 ∧
     node.WFN 2 c5Parent ∧ c5Parent.isLeaf = false ∧ c5Parent.n < 2*2 - 1 ∧
     0 ≤ c5Parent.n ∧ c5Parent.liveChildren.get? 0 = some c5FullChild ∧
     c5FullChild.n = 2*2 - 1) ∧
    (∃ (med : Item Int) (y1 z nd1 : node Int),
      node.splitChild 2 c5Parent 0 = .ok (some med, nd1) ∧
      c5FullChild.liveItems.get? (2-1) = some med ∧
      y1.liveItems = c5FullChild.liveItems.take (2-1) ∧ y1.n = 2 - 1 ∧
      y1.isLeaf = c5FullChild.isLeaf ∧
      z.liveItems = c5FullChild.liveItems.drop 2 ∧ z.n = 2 - 1 ∧
      z.isLeaf = c5FullChild.isLeaf ∧
      (c5FullChild.isLeaf = false → y1.liveChildren = c5FullChild.liveChildren.take 2 ∧
        z.liveChildren = c5FullChild.liveChildren.drop 2) ∧
      nd1.n = c5Parent.n + 1 ∧ nd1.isLeaf = c5Parent.isLeaf ∧
      nd1.liveItems = c5Parent.liveItems.insertIdx 0 med ∧
      nd1.liveChildren = (c5Parent.liveChildren.set 0 y1).insertIdx (0+1) z) := by
  have hwfy : node.WFN 2 c5FullChild := by
    refine node.WFN.mk true 3 _ _ rfl (by omega)
      ⟨[(1, 0), (2, 0), (3, 0)], [], rfl, rfl⟩
      (fun _ => rfl) (fun hcon => by cases hcon) (fun hcon => by cases hcon) ?_
    intro c hc
    simp [c5FullChild] at hc
  have hwfp : node.WFN 2 c5Parent := by
    refine node.WFN.mk false 0 _ _ rfl (by omega)
      ⟨[], [none, none, none], rfl, rfl⟩
      (fun hcon => by cases hcon) (fun _ => rfl)
      (fun _ => ⟨[c5FullChild], [none, none, none], rfl, rfl⟩) ?_
    intro c hc
    simp only [c5Parent, List.take] at hc
    rw [List.mem_singleton] at hc
    rw [Option.some.injEq] at hc
    rw [hc]
    exact hwfy
  have hy : c5Parent.liveChildren.get? 0 = some c5FullChild := rfl
  exact ⟨⟨by omega, hwfp, rfl, by decide, by decide, hy, rfl⟩,
    c5_splitChild_halves_and_promotes_median (by omega) hwfp rfl (by decide)
      (by decide) hy rfl⟩

/-- C6: `Tree.insert` grows the tree exactly when the root is full: it then
allocates a fresh internal root whose sole child (slot 0) is the old root,
immediately splits that child — leaving the new root internal with one item
and two children — and only then delegates to `node.insert`; the height
(unique on these trees) becomes `h+1` exactly on those inserts and stays `h`
otherwise. -/
theorem c6_root_growth_exactly_on_full_root {κ : Type} [LinearOrder κ]
    {t : Nat} (ht : 2 ≤ t) (xs : List (Item κ)) {b0 b : btree κ}
    (h0 : newBTree t = .ok b0) (hins : insertList b0 xs = .ok b)
    {h : Nat} (hbal : node.Bal b.root h) (x : Item κ) :
    ∃ (prev : Option (Item κ)) (b' : btree κ),
      btree.insert b x = .ok (prev, b') ∧
      node.Bal b'.root (if b.root.n = 2*b.t - 1 then h + 1 else h) ∧
      (∀ h2 : Nat, node.Bal b'.root h2 →
        h2 = (if b.root.n = 2*b.t - 1 then h + 1 else h)) ∧
      (b.root.n = 2*b.t - 1 →
        ∃ (med : Item κ) (y1 z r2 : node κ),
          node.splitChild b.t (node.setChild (node.newNode b.t false) 0 b.root) 0 =
            .ok (some med, r2) ∧
          r2.isLeaf = false ∧ r2.n = 1 ∧ r2.liveChildren = [y1, z] ∧
          node.insert b.t r2 x = .ok (prev, b'.root)) ∧
      (¬ b.root.n = 2*b.t - 1 →
        node.insert b.t b.root x = .ok (prev, b'.root)) := by
  obtain ⟨hnew, hinv0⟩ := TreeInv_newBTree (κ := κ) ht
  rw [hnew, Except.ok.injEq] at h0
  subst h0
  obtain ⟨b1, heq', hinv, -⟩ := TreeInv_insertList xs _ hinv0
  rw [hins, Except.ok.injEq] at heq'
  subst heq'
  obtain ⟨b', heq, hinv', -, -, -, hbal', hgrow, hstay⟩ := btree.insert_ok hinv hbal x
  refine ⟨lookupK x (node.inorder b.root), b', heq, hbal', ?_, ?_, hstay⟩
  · intro h2 hb2
    exact (node.Bal_unique hbal' h2 hinv'.2.1 hb2).symm
  · intro hfull
    obtain ⟨med, y1, z, r2, hsp, hlf, hn, hlc, -, hdel⟩ := hgrow hfull
    exact ⟨med, y1, z, r2, hsp, hlf, hn, hlc, hdel⟩

theorem c6_root_growth_witness :
    (2 ≤ 2 ∧
     newBTree (κ := Int) 2 = .ok ⟨node.newNode 2 true, 2, 0⟩ ∧
     insertList (⟨node.newNode 2 true, 2, 0⟩ : btree Int) [((1 : Int), 0)] =
       .ok ⟨node.mk true 1 [some ((1 : Int), 0), none, none] [], 2, 1⟩ ∧
     node.Bal (node.mk true 1 [some ((1 : Int), 0), none, none]
       ([] : List (Option (node Int)))) 1) ∧
    (∃ (prev : Option (Item Int)) (b' : btree Int),
      btree.insert (⟨node.mk true 1 [some ((1 : Int), 0), none, none] [], 2, 1⟩ :
          btree Int) ((2 : Int), 7) = .ok (prev, b') ∧
      node.Bal b'.root (if (node.mk true 1 [some ((1 : Int), 0), none, none]
          ([] : List (Option (node Int)))).n = 2*2 - 1 then 1 + 1 else 1) ∧
      (∀ h2 : Nat, node.Bal b'.root h2 →
        h2 = (if (node.mk true 1 [some ((1 : Int), 0), none, none]
          ([] : List (Option (node Int)))).n = 2*2 - 1 then 1 + 1 else 1)) ∧
      ((node.mk true 1 [some ((1 : Int), 0), none, none]
          ([] : List (Option (node Int)))).n = 2*2 - 1 →
        ∃ (med : Item Int) (y1 z r2 : node Int),
          node.splitChild 2 (node.setChild (node.newNode 2 false) 0
            (node.mk true 1 [some ((1 : Int), 0), none, none] [])) 0 =
            .ok (some med, r2) ∧
          r2.isLeaf = false ∧ r2.n = 1 ∧ r2.liveChildren = [y1, z] ∧
          node.insert 2 r2 ((2 : Int), 7) = .ok (prev, b'.root)) ∧
      (¬ (node.mk true 1 [some ((1 : Int), 0), none, none]
          ([] : List (Option (node Int)))).n = 2*2 - 1 →
        node.insert 2 (node.mk true 1 [some ((1 : Int), 0), none, none] [])
          ((2 : Int), 7) = .ok (prev, b'.root))) := by
  have h0 : newBTree (κ := Int) 2 = .ok ⟨node.newNode 2 true, 2, 0⟩ := by
    rw [newBTree, if_neg (by omega)]
  have hins : insertList (⟨node.newNode 2 true, 2, 0⟩ : btree Int) [((1 : Int), 0)] =
      .ok ⟨node.mk true 1 [some ((1 : Int), 0), none, none] [], 2, 1⟩ := by
    simp [insertList, btree.insert, node.insert, node.insertLeaf, node.insertLeafLoop,
      node.newNode, compareItems, equal, lessThan, greaterThan]
  have hbal : node.Bal (node.mk true 1 [some ((1 : Int), 0), none, none]
      ([] : List (Option (node Int)))) 1 := node.Bal.leaf _ _ _
  obtain ⟨prev, b', hrest⟩ :=
    c6_root_growth_exactly_on_full_root (by omega) [((1 : Int), 0)] h0 hins hbal
      ((2 : Int), 7)
  exact ⟨⟨by omega, h0, hins, hbal⟩, prev, b', hrest⟩

/-- The error values `btree.checkInvariances` can return (each Go
`fmt.Errorf` call, with the data it formats: the offending item pair, node
count, or leaf-height pair).  The routine returns these as values; only slice
or nil-pointer misuse would panic. -/
inductive ChkErr (κ : Type) where
  | duplicateItems (a b : Item κ)
  | notSorted (a b : Item κ)
  | rootInvalidN (n : Nat)
  | nodeInvalidN (n : Nat)
  | leafHeightMismatch (h height : Nat)

namespace node

variable {κ : Type}

/-- `traverseItems` of `checkInvariances`, from loop index `i`: for each live
slot, first walk child `i` when internal, then emit `items[i]` as read
(possibly nil); after the loop walk the last child.  The function reads
fields and never assigns, so the tree is returned to the caller unchanged. -/
def traverseItems : node κ → Nat → Except String (List (Option (Item κ)))
  | .mk lf nn it cs, i =>
    if _hi : i < nn then
      match (if lf then Except.ok ([] : List (Option (Item κ))) else
        match _hc : cs.get? i with
        | none => Except.error "index out of range"
        | some none => Except.error "nil pointer dereference"
        | some (some c) => traverseItems c 0) with
      | .error e => .error e
      | .ok pre =>
        match it.get? i with
        | none => .error "index out of range"
        | some oi =>
          match traverseItems (.mk lf nn it cs) (i+1) with
          | .error e => .error e
          | .ok post => .ok (pre ++ oi :: post)
    else
      if lf then .ok []
      else
        match _hc : cs.get? i with
        | none => .error "index out of range"
        | some none => .error "nil pointer dereference"
        | some (some c) => traverseItems c 0
  termination_by nd i => (sizeOf nd, nd.n - i)
  decreasing_by
  · exact Prod.Lex.left _ _ (sizeOf_lt_of_mem_children (List.get?_mem _hc) lf nn it)
  · apply Prod.Lex.right
    simp only [node.n]
    omega
  · exact Prod.Lex.left _ _ (sizeOf_lt_of_mem_children (List.get?_mem _hc) lf nn it)

end node

namespace node

variable {κ : Type} [LinearOrder κ]

/-- The ascending/duplicate scan of `checkInvariances` over the collected
items: each `items[i]` is compared against `items[i-1]`; `equal` reports a
duplicate pair, `lessThan` reports an out-of-order pair; a nil item in a
comparison is a Go panic. -/
def checkAscending : List (Option (Item κ)) → Except String (Option (ChkErr κ))
  | [] => .ok none
  | [_] => .ok none
  | a :: b :: rest =>
    match b, a with
    | none, _ => .error "nil item compare"
    | some _, none => .error "nil item compare"
    | some bi, some ai =>
      if compareItems bi ai = equal then .ok (some (.duplicateItems ai bi))
      else if compareItems bi ai = lessThan then .ok (some (.notSorted ai bi))
      else checkAscending (b :: rest)
  termination_by l => l.length

end node

namespace node

variable {κ : Type}

mutual

/-- `traverseNode` of `checkInvariances` with the occupancy-check closure
inlined: visit the node (recording the last violation of
`t-1 ≤ n ≤ 2t-1` in the threaded `err` accumulator), then its live
children in order. -/
def traverseNodeChk (t : Nat) : node κ → Option (ChkErr κ) →
    Except String (Option (ChkErr κ))
  | .mk lf nn it cs, acc =>
    let acc1 := if nn < t - 1 ∨ 2*t - 1 < nn then some (ChkErr.nodeInvalidN nn)
      else acc
    if lf then .ok acc1
    else traverseNodeChkLoop t (.mk lf nn it cs) 0 acc1
  termination_by nd _ => (sizeOf nd, nd.n + 2)
  decreasing_by
  · apply Prod.Lex.right
    simp only [node.n]
    omega

/-- The `for i := 0; i < n.n+1; i++` loop of `traverseNode` (also the loop of
`checkInvariances` itself over the root's children), from index `i`. -/
def traverseNodeChkLoop (t : Nat) : node κ → Nat → Option (ChkErr κ) →
    Except String (Option (ChkErr κ))
  | .mk lf nn it cs, i, acc =>
    if _hi : i < nn + 1 then
      match _hc : cs.get? i with
      | none => .error "index out of range"
      | some none => .error "nil pointer dereference"
      | some (some c) =>
        match traverseNodeChk t c acc with
        | .error e => .error e
        | .ok acc2 => traverseNodeChkLoop t (.mk lf nn it cs) (i+1) acc2
    else .ok acc
  termination_by nd i _ => (sizeOf nd, nd.n + 1 - i)
  decreasing_by
  · exact Prod.Lex.left _ _ (sizeOf_lt_of_mem_children (List.get?_mem _hc) lf nn it)
  · apply Prod.Lex.right
    simp only [node.n]
    omega

end

mutual

/-- `traverseHeight` of `checkInvariances`: collect each leaf's level
(the root passed at level 1). -/
def traverseHeightChk : node κ → Nat → Except String (List Nat)
  | .mk lf nn it cs, level =>
    if lf then .ok [level]
    else traverseHeightChkLoop (.mk lf nn it cs) 0 level
  termination_by nd _ => (sizeOf nd, nd.n + 2)
  decreasing_by
  · apply Prod.Lex.right
    simp only [node.n]
    omega

/-- The `for i := 0; i <= n.n; i++` loop of `traverseHeight`, from index
`i`. -/
def traverseHeightChkLoop : node κ → Nat → Nat → Except String (List Nat)
  | .mk lf nn it cs, i, level =>
    if _hi : i < nn + 1 then
      match _hc : cs.get? i with
      | none => .error "index out of range"
      | some none => .error "nil pointer dereference"
      | some (some c) =>
        match traverseHeightChk c (level+1) with
        | .error e => .error e
        | .ok hs1 =>
          match traverseHeightChkLoop (.mk lf nn it cs) (i+1) level with
          | .error e => .error e
          | .ok hs2 => .ok (hs1 ++ hs2)
    else .ok []
  termination_by nd i _ => (sizeOf nd, nd.n + 1 - i)
  decreasing_by
  · exact Prod.Lex.left _ _ (sizeOf_lt_of_mem_children (List.get?_mem _hc) lf nn it)
  · apply Prod.Lex.right
    simp only [node.n]
    omega

end

/-- The final scan of `checkInvariances`: every collected leaf height must
equal `leafHeights[0]`; the first mismatch is reported. -/
def checkHeights (height : Nat) : List Nat → Option (ChkErr κ)
  | [] => none
  | hd :: rest =>
    if hd ≠ height then some (.leafHeightMismatch hd height)
    else checkHeights height rest

end node

/-- `btree.checkInvariances`, statement by statement: collect the items
in order and scan for duplicates/misordering, check the root's upper count
bound, check every non-root node's count bounds (when the root is internal),
and check that all leaf heights agree.  The Go function only reads the tree
(no statement assigns to any node or tree field), so each success or
error-value return hands back the tree exactly as received; only a nil child
or an out-of-range index would panic. -/
def btree.checkInvariances {κ : Type} [LinearOrder κ] (b : btree κ) :
    Except String (btree κ × Option (ChkErr κ)) :=
  match node.traverseItems b.root 0 with
  | .error e => .error e
  | .ok items =>
    match node.checkAscending items with
    | .error e => .error e
    | .ok (some err) => .ok (b, some err)
    | .ok none =>
      if 2*b.t - 1 < b.root.n then .ok (b, some (ChkErr.rootInvalidN b.root.n))
      else
        match (if b.root.isLeaf = false then
            node.traverseNodeChkLoop b.t b.root 0 none
          else Except.ok none) with
        | .error e => .error e
        | .ok (some err) => .ok (b, some err)
        | .ok none =>
          match node.traverseHeightChk b.root 1 with
          | .error e => .error e
          | .ok leafHeights =>
            match leafHeights with
            | [] => .error "index out of range"
            | height :: _ => .ok (b, node.checkHeights height leafHeights)

/-- A tree violating the ascending-order invariant: a leaf root storing keys
`[2, 1]`. -/
def chkBadTree : btree Int :=
  ⟨node.mk true 2 [some (2, 0), some (1, 0), none] [], 2, 2⟩

/-- C9: `Tree.checkInvariances` never mutates the tree: whenever it returns —
success or reported violation alike — the tree it hands back is exactly the
tree it received; and an invariant violation is a returned error value
(a `ChkErr` carrying the offending item pair, node count, or leaf-height
pair), not a halt, as on the concrete out-of-order tree `chkBadTree`. -/
theorem c9_checkInvariances_read_only_and_value_failure :
    (∀ {κ : Type} [inst : LinearOrder κ] (b : btree κ)
      (r : btree κ × Option (ChkErr κ)),
      btree.checkInvariances b = .ok r → r.1 = b) ∧
    btree.checkInvariances chkBadTree =
      .ok (chkBadTree, some (ChkErr.notSorted ((2 : Int), 0) ((1 : Int), 0))) := by
  constructor
  · intro κ inst b r h
    unfold btree.checkInvariances at h
    repeat' split at h
    all_goals first
      | (rw [Except.ok.injEq] at h; rw [← h])
      | (exact absurd h (by simp))
  · simp [btree.checkInvariances, node.traverseItems, node.checkAscending,
      chkBadTree, compareItems, equal, lessThan, greaterThan]

theorem c9_checkInvariances_witness :
    btree.checkInvariances chkBadTree =
      .ok (chkBadTree, some (ChkErr.notSorted ((2 : Int), 0) ((1 : Int), 0))) ∧
    ((chkBadTree, some (ChkErr.notSorted ((2 : Int), 0) ((1 : Int), 0))) :
      btree Int × Option (ChkErr Int)).1 = chkBadTree := by
  have heq : btree.checkInvariances chkBadTree =
      .ok (chkBadTree, some (ChkErr.notSorted ((2 : Int), 0) ((1 : Int), 0))) := by
    simp [btree.checkInvariances, node.traverseItems, node.checkAscending,
      chkBadTree, compareItems, equal, lessThan, greaterThan]
  exact ⟨heq,
    c9_checkInvariances_read_only_and_value_failure.1 chkBadTree _ heq⟩
